import Mathlib

/-!
Verification of the folder_creater repository: a shallow embedding of
`folder_md_converter.py` (tree renderer `scan_directory`, tree parser
`parse_markdown_tree`, materializer `create_structure`) and of
`folder_creater/folder_creator.py` (markdown extractor, structure parser,
materializer, `main`), together with proofs of the specified properties.

Python strings are modelled as `List Char` (`Str`); the filesystem is an
association list from paths to nodes; fallible filesystem operations return
`Except` carrying the state at the point of failure.
-/

set_option maxRecDepth 4000

namespace FolderMd

/-- Python strings, modelled as lists of characters. -/
abbrev Str := List Char

/-- Python `s.rstrip('/')`: drop every trailing `'/'`. -/
def rstripSlashes (s : Str) : Str :=
  (s.reverse.dropWhile (fun c => c = '/')).reverse

/-- The characters Python `str.strip()` / `\s` treat as whitespace (ASCII part). -/
def isPySpace (c : Char) : Bool :=
  c = ' ' || c = '\t' || c = '\n' || c = '\r' || c = '\x0b' || c = '\x0c'

/-- Python `s.strip()` (ASCII whitespace). -/
def pyStrip (s : Str) : Str :=
  ((s.dropWhile isPySpace).reverse.dropWhile isPySpace).reverse

/-- Python `s.split('\n')`: split on every newline, keeping empty pieces. -/
def splitLines : Str → List Str
  | [] => [[]]
  | c :: rest =>
    if c = '\n' then [] :: splitLines rest
    else
      match splitLines rest with
      | [] => [[c]]
      | l :: ls => (c :: l) :: ls

/-- `'\n'.join` -like joining of rendered lines (how the rendered tree is
written out / printed, one line per list element). -/
def joinLines : List Str → Str
  | [] => []
  | [l] => l
  | l :: ls => l ++ '\n' :: joinLines ls

/-- Models `re.match(r'^(.*?)[└├]── (.+)$', line)`: the non-greedy group
captures everything before the leftmost branch glyph that is followed by
`"── "` and at least one further character; the second group is that rest of
the line.  Returns `(prefix-part, item)` on a match. -/
def findBranch : Str → Option (Str × Str)
  | [] => none
  | c :: rest =>
    if (c = '└' ∨ c = '├') ∧ rest.take 3 = ['─', '─', ' '] ∧ 3 < rest.length then
      some ([], rest.drop 3)
    else
      match findBranch rest with
      | some (p, item) => some (c :: p, item)
      | none => none

/-- One step of Python `os.path.join`: `join(path, b)`. -/
def pyJoin1 (path b : Str) : Str :=
  if b.head? = some '/' then b
  else if path = [] ∨ path.getLast? = some '/' then path ++ b
  else path ++ '/' :: b

/-- `os.path.join(p, b₁, b₂, …)` by folding `pyJoin1`. -/
def pyJoinList (p : Str) (bs : List Str) : Str :=
  bs.foldl pyJoin1 p

/-- `os.path.join(*segments)` for a non-empty segment list (the empty case
cannot arise: the parser's path stack always holds the root). -/
def pyJoinStack : List Str → Str
  | [] => []
  | p :: rest => pyJoinList p rest

/-- The `while len(current_path) > level: current_path.pop()` loop pops the
last element while the stack is longer than `level`; on the reversed stack
this repeatedly discards the head. -/
def popWhile (level : Nat) : List Str → List Str
  | [] => []
  | s@(_ :: rest) => if level < s.length then popWhile level rest else s

/-- The parser's stack-truncation loop (`pop()` removes the last element). -/
def truncateStack (stack : List Str) (level : Nat) : List Str :=
  (popWhile level stack.reverse).reverse

/-- Parser state: the path stack and the accumulated `(path, is_dir)` list. -/
structure ParseState where
  stack : List Str
  acc : List (Str × Bool)
deriving DecidableEq

/-- Processing of one line of the body of the diagram (everything inside the
`for line in lines[1:]` loop of `parse_markdown_tree`). -/
def parseStep (st : ParseState) (line : Str) : ParseState :=
  match findBranch line with
  | none => st
  | some (pfx, item) =>
    let level := pfx.length / 4 + 1
    let stack := truncateStack st.stack level
    if item.getLast? = some '/' then
      let item' := rstripSlashes item
      let stack' := stack ++ [item']
      { stack := stack', acc := st.acc ++ [(pyJoinStack stack', true)] }
    else
      { stack := stack, acc := st.acc ++ [(pyJoinStack (stack ++ [item]), false)] }

/-- `parse_markdown_tree` from `folder_md_converter.py`. -/
def parseMarkdownTree (mdContent : Str) : List (Str × Bool) :=
  let lines := splitLines (pyStrip mdContent)
  match lines with
  | [] => []
  | l0 :: rest =>
    let root := rstripSlashes l0
    (rest.foldl parseStep { stack := [root], acc := [] }).acc

example :
    parseMarkdownTree ("proj/\n├── src/\n│   └── main.py\n└── README.md".data) =
      [("proj/src".data, true), ("proj/src/main.py".data, false),
       ("proj/README.md".data, false)] := by decide

example : parseMarkdownTree ("proj/".data) = [] := by decide

/-! ## The filesystem tree and the renderer `scan_directory` -/

/-- A directory tree: the model of the real filesystem subtree that
`scan_directory` walks (`os.listdir` + `os.path.isdir`). -/
inductive FSEntry where
  | dir (nm : Str) (children : List FSEntry)
  | file (nm : Str)

/-- The entry's own name. -/
def FSEntry.name : FSEntry → Str
  | .dir n _ => n
  | .file n => n

/-- `os.path.isdir`. -/
def FSEntry.isDir : FSEntry → Bool
  | .dir _ _ => true
  | .file _ => false

/-- Python string `<=` : lexicographic comparison by code point. -/
def strLe : Str → Str → Bool
  | [], _ => true
  | _ :: _, [] => false
  | a :: as, b :: bs => if a < b then true else if b < a then false else strLe as bs

/-- Ordering of entries by name, as `sorted(os.listdir(...))` orders the
names handed back by the filesystem. -/
def nameLe (x y : FSEntry) : Prop := strLe x.name y.name = true

instance : DecidableRel nameLe := fun x y => by unfold nameLe; infer_instance

/-- The default ignore list of `folder_md_converter.py`. -/
def defaultIgnore : List Str :=
  [".git".data, "__pycache__".data, "node_modules".data, ".DS_Store".data]

/-- The filter of the renderer: drop hidden names and ignored names. -/
def keepName (ignore : List Str) (n : Str) : Bool :=
  !(n.head? = some '.') && !(ignore.contains n)

/-- `items = sorted(os.listdir(p))` followed by the hidden/ignore filter. -/
def childItems (children : List FSEntry) (ignore : List Str) : List FSEntry :=
  (List.insertionSort nameLe children).filter (fun c => keepName ignore c.name)

/-- The subdirectory part of the renderer's listing. -/
def dirsOf (children : List FSEntry) (ignore : List Str) : List FSEntry :=
  (childItems children ignore).filter (fun c => c.isDir)

/-- The file part of the renderer's listing. -/
def filesOf (children : List FSEntry) (ignore : List Str) : List FSEntry :=
  (childItems children ignore).filter (fun c => !c.isDir)

theorem sublist_sizeOf_le {l₁ l₂ : List FSEntry} (h : l₁.Sublist l₂) :
    sizeOf l₁ ≤ sizeOf l₂ := by
  induction h with
  | slnil => exact le_refl _
  | cons a _ ih => simp only [List.cons.sizeOf_spec]; omega
  | cons₂ a _ ih => simp only [List.cons.sizeOf_spec]; omega

theorem perm_sizeOf_eq {l₁ l₂ : List FSEntry} (h : l₁.Perm l₂) :
    sizeOf l₁ = sizeOf l₂ := by
  induction h with
  | nil => rfl
  | cons a _ ih => simp only [List.cons.sizeOf_spec]; omega
  | swap a b l => simp only [List.cons.sizeOf_spec]; omega
  | trans _ _ ih1 ih2 => omega

theorem sizeOf_dirsOf_le (children : List FSEntry) (ig : List Str) :
    sizeOf (dirsOf children ig) ≤ sizeOf children :=
  le_trans (sublist_sizeOf_le (List.filter_sublist _))
    (le_trans (sublist_sizeOf_le (List.filter_sublist _))
      (le_of_eq (perm_sizeOf_eq (List.perm_insertionSort nameLe children))))

/-- The `└── f` / `├── f` line for a file. -/
def fileLine (childPfx : Str) (isLastFile : Bool) (n : Str) : Str :=
  if isLastFile then childPfx ++ "└── ".data ++ n
  else childPfx ++ "├── ".data ++ n

/-- Lines emitted for the files of a listing (second loop of `scan_directory`;
`is_last_file` is true exactly for the final file). -/
def fileLines (childPfx : Str) : List FSEntry → List Str
  | [] => []
  | [f] => [fileLine childPfx true f.name]
  | f :: rest => fileLine childPfx false f.name :: fileLines childPfx rest

/-- A pending rendering of one child entry: given `(indent, is_last, prefix,
ignore_list)` it yields the child's lines. -/
abbrev RenderFn := Nat → Bool → Str → List Str → List Str

/-- Name ordering lifted to `(entry, pending rendering)` pairs. -/
def pairLe (x y : FSEntry × RenderFn) : Prop := strLe x.1.name y.1.name = true

instance : DecidableRel pairLe := fun x y => by unfold pairLe; infer_instance

/-- The first loop of `scan_directory` over the `(entry, pending rendering)`
pairs of the subdirectory listing: recurse into each subdirectory;
`is_last_dir` holds for the final one only when there are no files. -/
def renderDirs (ds : List (FSEntry × RenderFn)) (noFiles : Bool) (indent : Nat)
    (pfx : Str) (ignore : List Str) : List Str :=
  match ds with
  | [] => []
  | [d] => d.2 indent noFiles pfx ignore
  | d :: rest =>
    d.2 indent false pfx ignore ++ renderDirs rest noFiles indent pfx ignore

mutual

/-- `scan_directory` from `folder_md_converter.py`.  The Python function is
only ever applied to directories; on a `file` node it renders nothing.  So
that the definition is structurally recursive (and hence computable by the
kernel), the recursion is staged: `scanChildren` pairs every child with its
pending recursive rendering before the listing is sorted, filtered and
partitioned exactly as in the source. -/
def scanDirectory (e : FSEntry) (indent : Nat) (isLast : Bool) (pfx : Str)
    (ignore : List Str) : List Str :=
  match e with
  | .file _ => []
  | .dir dirName children =>
    let line : Str :=
      if indent = 0 then dirName ++ ['/']
      else if isLast then pfx ++ "└── ".data ++ dirName ++ ['/']
      else pfx ++ "├── ".data ++ dirName ++ ['/']
    let items := (List.insertionSort pairLe (scanChildren children)).filter
      (fun c => keepName ignore c.1.name)
    let dirs := items.filter (fun c => c.1.isDir)
    let files := (items.filter (fun c => !c.1.isDir)).map (fun c => c.1)
    let childPfx : Str :=
      if 0 < indent then
        (if isLast then pfx ++ "    ".data else pfx ++ "│   ".data)
      else []
    line :: (renderDirs dirs files.isEmpty (indent + 1) childPfx ignore ++
      fileLines childPfx files)

/-- Pair each child with its pending recursive rendering. -/
def scanChildren : List FSEntry → List (FSEntry × RenderFn)
  | [] => []
  | c :: cs =>
    (c, fun indent isLast pfx ignore => scanDirectory c indent isLast pfx ignore) ::
      scanChildren cs

end

/-- The loop of `scan_directory` over the plain subdirectory listing (the
presentation against which the properties are stated; `scanDirectory_dir`
proves the staged definition computes it). -/
def scanDirs (ds : List FSEntry) (noFiles : Bool) (indent : Nat) (pfx : Str)
    (ignore : List Str) : List Str :=
  match ds with
  | [] => []
  | [d] => scanDirectory d indent noFiles pfx ignore
  | d :: rest =>
    scanDirectory d indent false pfx ignore ++ scanDirs rest noFiles indent pfx ignore

/-- The pairing embedding used by the staged recursion. -/
def emb (c : FSEntry) : FSEntry × RenderFn := (c, scanDirectory c)

theorem scanChildren_eq_map (cs : List FSEntry) : scanChildren cs = cs.map emb := by
  induction cs with
  | nil => rfl
  | cons c cs ih => simp [scanChildren, emb, ih]

theorem orderedInsert_emb (a : FSEntry) (l : List FSEntry) :
    List.orderedInsert pairLe (emb a) (l.map emb) =
      (List.orderedInsert nameLe a l).map emb := by
  induction l with
  | nil => rfl
  | cons b l ih =>
    by_cases h : nameLe a b
    · have h' : pairLe (emb a) (emb b) := h
      simp only [List.map_cons, List.orderedInsert, if_pos h, if_pos h']
    · have h' : ¬pairLe (emb a) (emb b) := h
      simp only [List.map_cons, List.orderedInsert, if_neg h, if_neg h', ih]

theorem insertionSort_emb (l : List FSEntry) :
    List.insertionSort pairLe (l.map emb) =
      (List.insertionSort nameLe l).map emb := by
  induction l with
  | nil => rfl
  | cons a l ih =>
    simp only [List.map_cons, List.insertionSort, ih, orderedInsert_emb]

theorem filter_emb (p : FSEntry → Bool) (l : List FSEntry) :
    (l.map emb).filter (fun c => p c.1) = (l.filter p).map emb := by
  induction l with
  | nil => rfl
  | cons a l ih =>
    by_cases h : p a
    · simp [List.filter_cons, emb, h, ih]
    · simp [List.filter_cons, emb, h, ih]

theorem renderDirs_emb (ds : List FSEntry) (noFiles : Bool) (indent : Nat)
    (pfx : Str) (ignore : List Str) :
    renderDirs (ds.map emb) noFiles indent pfx ignore =
      scanDirs ds noFiles indent pfx ignore := by
  induction ds with
  | nil => rfl
  | cons d rest ih =>
    cases rest with
    | nil => rfl
    | cons e rest' =>
      show scanDirectory d indent false pfx ignore ++
          renderDirs (List.map emb (e :: rest')) noFiles indent pfx ignore =
        scanDirectory d indent false pfx ignore ++
          scanDirs (e :: rest') noFiles indent pfx ignore
      rw [ih]

theorem scanDirectory_file (n : Str) (indent : Nat) (isLast : Bool) (pfx : Str)
    (ignore : List Str) : scanDirectory (.file n) indent isLast pfx ignore = [] := rfl

/-- The staged definition computes exactly the source's loop: header line,
then the recursively rendered subdirectories, then the file lines. -/
theorem scanDirectory_dir (dirName : Str) (children : List FSEntry) (indent : Nat)
    (isLast : Bool) (pfx : Str) (ignore : List Str) :
    scanDirectory (.dir dirName children) indent isLast pfx ignore =
      (if indent = 0 then dirName ++ ['/']
       else if isLast then pfx ++ "└── ".data ++ dirName ++ ['/']
       else pfx ++ "├── ".data ++ dirName ++ ['/']) ::
      (scanDirs (dirsOf children ignore) (filesOf children ignore).isEmpty (indent + 1)
          (if 0 < indent then
            (if isLast then pfx ++ "    ".data else pfx ++ "│   ".data)
          else []) ignore ++
        fileLines
          (if 0 < indent then
            (if isLast then pfx ++ "    ".data else pfx ++ "│   ".data)
          else []) (filesOf children ignore)) := by
  show (_ :: (renderDirs _ _ _ _ _ ++ fileLines _ _) : List Str) = _
  rw [scanChildren_eq_map, insertionSort_emb]
  rw [filter_emb (fun c => keepName ignore c.name), filter_emb (fun c => c.isDir),
    filter_emb (fun c => !c.isDir), renderDirs_emb]
  have hmap : ∀ l : List FSEntry, (l.map emb).map (fun c => c.1) = l := by
    intro l; induction l with
    | nil => rfl
    | cons a l ih => simp [emb, ih]
  rw [hmap]
  rfl

mutual

def FSEntry.deq : ∀ (a b : FSEntry), Decidable (a = b)
  | .dir n cs, .dir m ds =>
    match decEq n m, FSEntry.deqList cs ds with
    | isTrue h1, isTrue h2 => isTrue (by rw [h1, h2])
    | isFalse h1, _ => isFalse (by intro h; cases h; exact h1 rfl)
    | _, isFalse h2 => isFalse (by intro h; cases h; exact h2 rfl)
  | .dir _ _, .file _ => isFalse (by intro h; cases h)
  | .file _, .dir _ _ => isFalse (by intro h; cases h)
  | .file n, .file m =>
    match decEq n m with
    | isTrue h => isTrue (by rw [h])
    | isFalse h => isFalse (by intro hh; cases hh; exact h rfl)

def FSEntry.deqList : ∀ (as bs : List FSEntry), Decidable (as = bs)
  | [], [] => isTrue rfl
  | [], _ :: _ => isFalse (by intro h; cases h)
  | _ :: _, [] => isFalse (by intro h; cases h)
  | a :: as, b :: bs =>
    match FSEntry.deq a b, FSEntry.deqList as bs with
    | isTrue h1, isTrue h2 => isTrue (by rw [h1, h2])
    | isFalse h1, _ => isFalse (by intro h; cases h; exact h1 rfl)
    | _, isFalse h2 => isFalse (by intro h; cases h; exact h2 rfl)

end

instance : DecidableEq FSEntry := FSEntry.deq

/-- The tree of the worked example: `proj` containing `src/main.py` and
`README.md`. -/
def exampleTree : FSEntry :=
  .dir "proj".data [.dir "src".data [.file "main.py".data], .file "README.md".data]

/-! ## Basic facts about the parser's primitives -/

theorem popWhile_eq_drop (level : Nat) (l : List Str) :
    popWhile level l = l.drop (l.length - level) := by
  induction l with
  | nil => simp [popWhile]
  | cons a rest ih =>
    unfold popWhile
    by_cases h : level < (a :: rest).length
    · rw [if_pos h, ih]
      have h2 : (a :: rest).length - level = (rest.length - level) + 1 := by
        simp only [List.length_cons] at h ⊢; omega
      rw [h2, List.drop_succ_cons]
    · rw [if_neg h]
      have h2 : (a :: rest).length - level = 0 := by
        simp only [List.length_cons] at h ⊢; omega
      rw [h2, List.drop_zero]

/-- The pop-loop truncates the stack to its first `level` elements. -/
theorem truncateStack_eq_take (s : List Str) (level : Nat) :
    truncateStack s level = s.take level := by
  unfold truncateStack
  rw [popWhile_eq_drop, List.length_reverse, ← List.reverse_take, List.reverse_reverse]

theorem take_min_length (s : List Str) (level : Nat) :
    s.take (min s.length level) = s.take level := by
  rcases le_total s.length level with h | h
  · rw [min_eq_left h, List.take_length, List.take_of_length_le h]
  · rw [min_eq_right h]

/-- Every matched item of `findBranch` is non-empty (the regex requires at
least one character after the branch glyph). -/
theorem findBranch_item_ne_nil : ∀ (line pfx item : Str),
    findBranch line = some (pfx, item) → item ≠ []
  | [], _, _, h => by simp [findBranch] at h
  | c :: rest, pfx, item, h => by
    unfold findBranch at h
    by_cases hc : (c = '└' ∨ c = '├') ∧ rest.take 3 = ['─', '─', ' '] ∧ 3 < rest.length
    · rw [if_pos hc] at h
      obtain ⟨h1, h2⟩ := Prod.mk.injEq .. ▸ Option.some.injEq .. ▸ h
      intro hnil
      rw [← h2] at hnil
      have := List.length_drop 3 rest ▸ congrArg List.length hnil
      simp only [List.length_nil] at this
      omega
    · rw [if_neg hc] at h
      rcases h3 : findBranch rest with _ | ⟨p, it⟩
      · rw [h3] at h; cases h
      · rw [h3] at h
        obtain ⟨h1, h2⟩ := Prod.mk.injEq .. ▸ Option.some.injEq .. ▸ h
        exact h2 ▸ findBranch_item_ne_nil rest p it h3

/-! ## Claims C3, C4, C5, C10 -/

/-- C3: for every line after the first that matches the branch pattern, the
computed level is `(prefix length) / 4 + 1`, the path stack is truncated to
the minimum of its current length and that level before the item is placed
(so an over-deep line leaves the stack at its current length), the line is
accepted (exactly one entry is emitted) and parsing cannot fail; a
non-matching line leaves stack and output unchanged. -/
theorem claim_C3_line_handling (st : ParseState) (line : Str) :
    (findBranch line = none → parseStep st line = st) ∧
    (∀ pfx item, findBranch line = some (pfx, item) →
      (parseStep st line).acc.length = st.acc.length + 1 ∧
      (parseStep st line).stack =
        (if item.getLast? = some '/'
         then st.stack.take (min st.stack.length (pfx.length / 4 + 1)) ++
           [rstripSlashes item]
         else st.stack.take (min st.stack.length (pfx.length / 4 + 1)))) := by
  constructor
  · intro h
    unfold parseStep
    rw [h]
  · intro pfx item h
    simp only [parseStep, h, truncateStack_eq_take, take_min_length]
    by_cases hd : item.getLast? = some '/'
    · simp [hd]
    · simp [hd]

/-- Witness for C3: a line with sixteen spaces of indentation has level 5;
against a stack of length 2 it is still accepted, the stack stays at its
current two elements, and one entry is emitted. -/
theorem claim_C3_line_handling_witness :
    (parseStep ⟨[['a'], ['b']], []⟩ ("                └── x".data)).stack = [['a'], ['b']] ∧
    (parseStep ⟨[['a'], ['b']], []⟩ ("                └── x".data)).acc.length = 0 + 1 := by
  have h := (claim_C3_line_handling ⟨[['a'], ['b']], []⟩
    ("                └── x".data)).2 ("                ".data) ['x'] (by decide)
  refine ⟨?_, h.1⟩
  rw [h.2]
  decide

/-- C4: the four-line example diagram parses to exactly the three expected
entries, in order. -/
theorem claim_C4_example_parse :
    parseMarkdownTree ("proj/\n├── src/\n│   └── main.py\n└── README.md".data) =
      [("proj/src".data, true), ("proj/src/main.py".data, false),
       ("proj/README.md".data, false)] := by decide

/-- C5: rendering the example tree `proj` (directory `src` with `main.py`,
file `README.md`) with the default ignore list reproduces the example
diagram exactly, including the glyph choice. -/
theorem claim_C5_example_render :
    scanDirectory exampleTree 0 false [] defaultIgnore =
      ["proj/".data, "├── src/".data, "│   └── main.py".data, "└── README.md".data] := by
  decide

/-- Number of lines matching the branch pattern. -/
def branchCount (ls : List Str) : Nat :=
  ls.countP (fun l => (findBranch l).isSome)

theorem parseStep_acc_length (st : ParseState) (line : Str) :
    (parseStep st line).acc.length =
      st.acc.length + (if (findBranch line).isSome then 1 else 0) := by
  unfold parseStep
  rcases h : findBranch line with _ | ⟨pfx, item⟩
  · simp [h]
  · by_cases hd : item.getLast? = some '/'
    · simp [h, hd]
    · simp [h, hd]

theorem foldl_parseStep_acc_length (ls : List Str) : ∀ (st : ParseState),
    ((ls.foldl parseStep st).acc).length = st.acc.length + branchCount ls := by
  induction ls with
  | nil => intro st; simp [branchCount]
  | cons l rest ih =>
    intro st
    rw [List.foldl_cons, ih, parseStep_acc_length]
    unfold branchCount
    rw [List.countP_cons]
    by_cases h : (findBranch l).isSome
    · simp [h]
      omega
    · simp [h]

/-- C10: the first line never contributes an entry — the parse result has
exactly one entry per branch-matching line among the lines after the first,
and in particular a single root line parses to the empty sequence. -/
theorem claim_C10_root_not_recorded :
    (∀ s : Str, (parseMarkdownTree s).length =
      branchCount ((splitLines (pyStrip s)).drop 1)) ∧
    parseMarkdownTree ("proj/".data) = [] := by
  constructor
  · intro s
    unfold parseMarkdownTree
    rcases h : splitLines (pyStrip s) with _ | ⟨l0, rest⟩
    · simp [branchCount]
    · dsimp only
      rw [foldl_parseStep_acc_length]
      simp
  · decide

/-! ## Claim C7: the listing of a rendered directory -/

theorem strLe_total : ∀ a b : Str, strLe a b = true ∨ strLe b a = true
  | [], _ => Or.inl rfl
  | _ :: _, [] => Or.inr rfl
  | a :: as, b :: bs => by
    unfold strLe
    rcases lt_trichotomy a b with h | h | h
    · left; rw [if_pos h]
    · subst h
      simp only [if_neg (lt_irrefl a)]
      exact strLe_total as bs
    · right; rw [if_pos h]

theorem strLe_trans : ∀ x y z : Str,
    strLe x y = true → strLe y z = true → strLe x z = true
  | [], _, _, _, _ => rfl
  | a :: as, [], _, h, _ => by simp [strLe] at h
  | _ :: _, _ :: _, [], _, h => by simp [strLe] at h
  | a :: as, b :: bs, c :: cs, h1, h2 => by
    unfold strLe at h1 h2 ⊢
    by_cases hab : a < b
    · by_cases hbc : b < c
      · rw [if_pos (lt_trans hab hbc)]
      · by_cases hcb : c < b
        · rw [if_neg hbc, if_pos hcb] at h2; cases h2
        · have hbc' : b = c := le_antisymm (not_lt.mp hcb) (not_lt.mp hbc)
          subst hbc'
          rw [if_pos hab]
    · by_cases hba : b < a
      · rw [if_neg hab, if_pos hba] at h1; cases h1
      · have hab' : a = b := le_antisymm (not_lt.mp hba) (not_lt.mp hab)
        subst hab'
        rw [if_neg (lt_irrefl a), if_neg (lt_irrefl a)] at h1
        by_cases hac : a < c
        · rw [if_pos hac]
        · by_cases hca : c < a
          · rw [if_neg hac, if_pos hca] at h2; cases h2
          · rw [if_neg hac, if_neg hca] at h2 ⊢
            exact strLe_trans as bs cs h1 h2

instance : IsTotal FSEntry nameLe := ⟨fun a b => strLe_total a.name b.name⟩

instance : IsTrans FSEntry nameLe :=
  ⟨fun a b c h1 h2 => strLe_trans a.name b.name c.name h1 h2⟩

/-- C7: the listing of a rendered directory omits every hidden child and
every ignored child, shows each remaining child exactly once, split into the
subdirectories first and then the files, each group sorted by name in
lexicographic order — and `scan_directory` emits exactly that listing after
the header line. -/
theorem claim_C7_listing (children : List FSEntry) (ignore : List Str) :
    (∀ e ∈ dirsOf children ignore ++ filesOf children ignore,
      keepName ignore e.name = true) ∧
    (dirsOf children ignore ++ filesOf children ignore).Perm
      (children.filter (fun c => keepName ignore c.name)) ∧
    (∀ e ∈ dirsOf children ignore, e.isDir = true) ∧
    (∀ e ∈ filesOf children ignore, e.isDir = false) ∧
    List.Sorted nameLe (dirsOf children ignore) ∧
    List.Sorted nameLe (filesOf children ignore) ∧
    (∀ (dirName : Str) (indent : Nat) (isLast : Bool) (pfx : Str),
      ∃ (hdr : Str) (cpfx : Str),
        scanDirectory (.dir dirName children) indent isLast pfx ignore =
          hdr :: (scanDirs (dirsOf children ignore)
              (filesOf children ignore).isEmpty (indent + 1) cpfx ignore ++
            fileLines cpfx (filesOf children ignore))) := by
  have hsorted : List.Sorted nameLe (childItems children ignore) :=
    (List.sorted_insertionSort nameLe children).sublist (List.filter_sublist _)
  refine ⟨?_, ?_, ?_, ?_, ?_, ?_, ?_⟩
  · intro e he
    rcases List.mem_append.mp he with h | h
    · exact (List.mem_filter.mp (List.mem_of_mem_filter h)).2
    · exact (List.mem_filter.mp (List.mem_of_mem_filter h)).2
  · exact (List.filter_append_perm _ (childItems children ignore)).trans
      ((List.perm_insertionSort nameLe children).filter _)
  · intro e he
    exact (List.mem_filter.mp he).2
  · intro e he
    have h := (List.mem_filter.mp he).2
    simpa using h
  · exact hsorted.sublist (List.filter_sublist _)
  · exact hsorted.sublist (List.filter_sublist _)
  · intro dirName indent isLast pfx
    exact ⟨_, _, scanDirectory_dir dirName children indent isLast pfx ignore⟩

/-- Witness for C7: the visible subdirectory `src` of the example tree is
neither hidden nor ignored. -/
theorem claim_C7_listing_witness :
    keepName defaultIgnore (FSEntry.dir "src".data [FSEntry.file "main.py".data]).name = true :=
  (claim_C7_listing
    [FSEntry.dir "src".data [FSEntry.file "main.py".data],
     FSEntry.file "README.md".data] defaultIgnore).1
    (FSEntry.dir "src".data [FSEntry.file "main.py".data]) (by decide)

/-! ## Claim C6: directory entries precede the entries nested under them -/

/-- Proper path-ancestry: `pathAbove q p` holds when `p` extends `q` past a
path separator, i.e. `p = q ++ '/' :: r`. -/
def pathAbove : Str → Str → Bool
  | [], c :: _ => c == '/'
  | a :: q', b :: p' => a == b && pathAbove q' p'
  | _, [] => false

theorem pathAbove_iff (q p : Str) : pathAbove q p = true ↔ ∃ r, p = q ++ '/' :: r := by
  induction q generalizing p with
  | nil =>
    cases p with
    | nil => simp [pathAbove]
    | cons b p' =>
      simp only [pathAbove, beq_iff_eq, List.nil_append]
      constructor
      · intro h
        exact ⟨p', by rw [h]⟩
      · rintro ⟨r, hr⟩
        cases hr
        rfl
  | cons a q' ih =>
    cases p with
    | nil => simp [pathAbove]
    | cons b p' =>
      simp only [pathAbove, Bool.and_eq_true, beq_iff_eq, ih, List.cons_append,
        List.cons.injEq]
      constructor
      · rintro ⟨h1, r, h2⟩
        exact ⟨r, h1.symm, h2⟩
      · rintro ⟨r, h1, h2⟩
        exact ⟨h1.symm, r, h2⟩

/-- The claim C6 as stated, as an executable check on a parse result: every
directory entry appears strictly before every entry whose path it properly
prefixes. -/
def dirBeforeNested (es : List (Str × Bool)) : Bool :=
  (es.enum).all fun p =>
    (es.enum).all fun x =>
      !(p.2.2 && pathAbove p.2.1 x.2.1) || decide (p.1 < x.1)

/-- Counterexample to C6 as stated: parsing
`a` / `├── b/c.txt` / `└── b/` yields the file entry `a/b/c.txt` first and
the directory entry `a/b` — whose path properly prefixes it — only
afterwards. -/
theorem claim_C6_counterexample :
    parseMarkdownTree ("a\n├── b/c.txt\n└── b/".data) =
      [("a/b/c.txt".data, false), ("a/b".data, true)] ∧
    dirBeforeNested (parseMarkdownTree ("a\n├── b/c.txt\n└── b/".data)) = false := by
  decide

/-! ### Path segments and joined paths -/

/-- Valid path segments: non-empty and slash-free. -/
def segsOk (e : List Str) : Prop := ∀ s ∈ e, s ≠ [] ∧ '/' ∉ s

/-- Joining non-root segments with `'/'`. -/
def joinSegs : List Str → Str
  | [] => []
  | [s] => s
  | s :: rest => s ++ '/' :: joinSegs rest

/-- Leading root part of every path the parser builds. -/
def rootPre (root : Str) : Str := if root = [] then [] else root ++ ['/']

theorem joinSegs_cons (s : Str) (rest : List Str) (h : rest ≠ []) :
    joinSegs (s :: rest) = s ++ '/' :: joinSegs rest := by
  cases rest with
  | nil => exact absurd rfl h
  | cons t r => rfl

theorem joinSegs_ne_nil (e : List Str) (he : segsOk e) (hne : e ≠ []) :
    joinSegs e ≠ [] := by
  cases e with
  | nil => exact absurd rfl hne
  | cons s rest =>
    cases rest with
    | nil => exact (he s (List.mem_singleton_self s)).1
    | cons t r =>
      rw [joinSegs_cons s _ (by simp)]
      intro h
      have := congrArg List.length h
      simp at this

theorem joinSegs_getLast?_ne_slash (e : List Str) (he : segsOk e) (hne : e ≠ []) :
    (joinSegs e).getLast? ≠ some '/' := by
  induction e with
  | nil => exact absurd rfl hne
  | cons s rest ih =>
    cases rest with
    | nil =>
      show (joinSegs [s]).getLast? ≠ some '/'
      intro h
      exact (he s (by simp)).2 (List.mem_of_mem_getLast? h)
    | cons t r =>
      have hrest : segsOk (t :: r) := fun x hx => he x (List.mem_cons_of_mem s hx)
      have hnn : joinSegs (t :: r) ≠ [] := joinSegs_ne_nil _ hrest (by simp)
      rw [joinSegs_cons s _ (by simp), List.getLast?_append]
      rcases hlast : (joinSegs (t :: r)).getLast? with _ | c
      · rw [List.getLast?_eq_none_iff] at hlast; exact absurd hlast hnn
      · have h1 : ('/' :: joinSegs (t :: r)).getLast? = some c := by
          cases hjj : joinSegs (t :: r) with
          | nil => exact absurd hjj hnn
          | cons a as =>
            rw [hjj] at hlast
            rw [List.getLast?_cons_cons]
            exact hlast
        rw [h1]
        show (some c : Option Char) ≠ some '/'
        intro hc
        cases hc
        exact ih hrest (by simp) hlast

theorem pyJoinList_formula : ∀ (e : List Str), segsOk e → e ≠ [] →
    ∀ p : Str, p.getLast? ≠ some '/' →
      pyJoinList p e = (if p = [] then [] else p ++ ['/']) ++ joinSegs e
  | [], _, hne, _, _ => absurd rfl hne
  | [s], he, _, p, hp => by
    have hs := he s (by simp)
    have hhead : s.head? ≠ some '/' := by
      intro h
      exact hs.2 (List.mem_of_mem_head? h)
    show pyJoin1 p s = _
    unfold pyJoin1
    rw [if_neg hhead]
    by_cases hp0 : p = []
    · subst hp0
      rw [if_pos (Or.inl rfl), if_pos rfl]
      rfl
    · rw [if_neg (by rintro (h | h); exact hp0 h; exact hp h), if_neg hp0]
      show p ++ '/' :: s = (p ++ ['/']) ++ joinSegs [s]
      simp [joinSegs]
  | s :: t :: r, he, _, p, hp => by
    have hs := he s (by simp)
    have hhead : s.head? ≠ some '/' := by
      intro h
      exact hs.2 (List.mem_of_mem_head? h)
    have hrest : segsOk (t :: r) := fun x hx => he x (List.mem_cons_of_mem s hx)
    show pyJoinList (pyJoin1 p s) (t :: r) = _
    have hp1 : pyJoin1 p s = (if p = [] then [] else p ++ ['/']) ++ s := by
      unfold pyJoin1
      rw [if_neg hhead]
      by_cases hp0 : p = []
      · subst hp0
        rw [if_pos (Or.inl rfl), if_pos rfl]
      · rw [if_neg (by rintro (h | h); exact hp0 h; exact hp h), if_neg hp0]
        simp
    have hlast : (pyJoin1 p s).getLast? ≠ some '/' := by
      rw [hp1, List.getLast?_append]
      rcases hsl : s.getLast? with _ | c
      · rw [List.getLast?_eq_none_iff] at hsl
        exact absurd hsl hs.1
      · intro h
        simp only [Option.or_some, Option.some.injEq] at h
        subst h
        exact hs.2 (List.mem_of_mem_getLast? hsl)
    rw [pyJoinList_formula (t :: r) hrest (by simp) (pyJoin1 p s) hlast]
    rw [hp1, if_neg (by
      intro h
      have := congrArg List.length h
      simp at this
      exact absurd this.2 hs.1)]
    rw [joinSegs_cons s _ (by simp)]
    simp

theorem pyJoinStack_formula (root : Str) (e : List Str) (hroot : root.getLast? ≠ some '/')
    (he : segsOk e) (hne : e ≠ []) :
    pyJoinStack (root :: e) = rootPre root ++ joinSegs e := by
  show pyJoinList root e = _
  rw [pyJoinList_formula e he hne root hroot]
  rfl

/-- A string of the shape `a ++ '/' :: x` with slash-free `a` determines `a`
and `x`. -/
theorem slashSplit_unique : ∀ (a b x y : Str), '/' ∉ a → '/' ∉ b →
    a ++ '/' :: x = b ++ '/' :: y → a = b ∧ x = y
  | [], [], x, y, _, _, h => by
    simp only [List.nil_append, List.cons.injEq] at h
    exact ⟨rfl, h.2⟩
  | [], c :: b', x, y, _, hb, h => by
    simp only [List.nil_append, List.cons_append, List.cons.injEq] at h
    exact absurd (h.1 ▸ List.mem_cons_self c b') hb
  | c :: a', [], x, y, ha, _, h => by
    simp only [List.nil_append, List.cons_append, List.cons.injEq] at h
    exact absurd (h.1 ▸ List.mem_cons_self c a') ha
  | c :: a', d :: b', x, y, ha, hb, h => by
    simp only [List.cons_append, List.cons.injEq] at h
    obtain ⟨rfl, h2⟩ := h
    have := slashSplit_unique a' b' x y (fun hm => ha (List.mem_cons_of_mem c hm))
      (fun hm => hb (List.mem_cons_of_mem c hm)) h2
    exact ⟨by rw [this.1], this.2⟩

/-- If the joined segments `e'` extend to the joined segments `e` across a
separator then `e'` is a proper segment-prefix of `e`. -/
theorem joinSegs_above : ∀ (el e : List Str) (r : Str), segsOk el → segsOk e →
    el ≠ [] → e ≠ [] → joinSegs el ++ '/' :: r = joinSegs e →
    el.length < e.length ∧ e.take el.length = el
  | [], _, _, _, _, hne, _, _ => absurd rfl hne
  | [t], s :: rest, r, hel, he, _, _, h => by
    cases rest with
    | nil =>
      exfalso
      have hs := he s (by simp)
      apply hs.2
      have : '/' ∈ joinSegs [s] := by
        rw [← h]
        exact List.mem_append_right _ (List.mem_cons_self _ _)
      exact this
    | cons u rest' =>
      rw [joinSegs_cons s _ (by simp)] at h
      have := slashSplit_unique t s r (joinSegs (u :: rest'))
        (hel t (by simp)).2 (he s (by simp)).2 h
      refine ⟨by simp, ?_⟩
      rw [this.1]
      rfl
  | t :: u' :: el', s :: rest, r, hel, he, _, _, h => by
    rw [joinSegs_cons t _ (by simp)] at h
    cases rest with
    | nil =>
      exfalso
      have hs := he s (by simp)
      apply hs.2
      have : '/' ∈ joinSegs [s] := by
        rw [← h]
        rw [List.append_assoc]
        exact List.mem_append_right _ (List.mem_cons_self _ _)
      exact this
    | cons u rest' =>
      rw [joinSegs_cons s _ (by simp)] at h
      rw [List.append_assoc] at h
      have hsp := slashSplit_unique t s (joinSegs (u' :: el') ++ '/' :: r)
        (joinSegs (u :: rest')) (hel t (by simp)).2 (he s (by simp)).2 h
      have hel' : segsOk (u' :: el') := fun x hx => hel x (List.mem_cons_of_mem t hx)
      have he' : segsOk (u :: rest') := fun x hx => he x (List.mem_cons_of_mem s hx)
      have ih := joinSegs_above (u' :: el') (u :: rest') r hel' he'
        (by simp) (by simp) hsp.2
      constructor
      · simp only [List.length_cons] at ih ⊢
        omega
      · have h2 := ih.2
        simp only [List.length_cons, List.take_succ_cons] at h2
        simp only [List.length_cons, List.take_succ_cons, hsp.1, h2]

theorem head?_dropWhile_not (p : Char → Bool) : ∀ (l : Str) (a : Char),
    (List.dropWhile p l).head? = some a → p a = false := by
  intro l
  induction l with
  | nil => intro a h; cases h
  | cons x xs ih =>
    intro a h
    rw [List.dropWhile_cons] at h
    by_cases hx : p x
    · rw [if_pos hx] at h
      exact ih a h
    · rw [if_neg hx] at h
      cases h
      exact Bool.of_not_eq_true hx

theorem rstripSlashes_getLast? (s : Str) : (rstripSlashes s).getLast? ≠ some '/' := by
  unfold rstripSlashes
  rw [List.getLast?_reverse]
  intro h
  have := head?_dropWhile_not _ _ _ h
  simp at this

theorem rstripSlashes_eq_self (s : Str) (h : s.getLast? ≠ some '/') :
    rstripSlashes s = s := by
  unfold rstripSlashes
  rcases hr : s.reverse with _ | ⟨c, t⟩
  · rw [List.reverse_eq_nil_iff] at hr
    subst hr
    rfl
  · have hc : c ≠ '/' := by
      intro hc
      apply h
      rw [← List.head?_reverse, hr, hc]
      rfl
    rw [List.dropWhile_cons, if_neg (by simpa using hc), ← hr, List.reverse_reverse]

/-! ### The parser's stack/output invariant -/

/-- Per-line hypothesis of the amended C6: a matched item denotes, after
stripping trailing slashes, a single non-empty slash-free path segment. -/
def lineItemOk (l : Str) : Bool :=
  match findBranch l with
  | some (_, item) => decide (rstripSlashes item ≠ [] ∧ '/' ∉ rstripSlashes item)
  | none => true

theorem lineItemOk_elim {l pfx item : Str} (h : lineItemOk l = true)
    (hf : findBranch l = some (pfx, item)) :
    rstripSlashes item ≠ [] ∧ '/' ∉ rstripSlashes item := by
  unfold lineItemOk at h
  rw [hf] at h
  exact of_decide_eq_true h

/-- Output part of the invariant: each emitted entry's path is the root part
followed by joined valid segments, and each of its proper segment-ancestors
was emitted earlier as a directory entry. -/
def accOk (root : Str) (acc : List (Str × Bool)) : Prop :=
  ∀ j (hj : j < acc.length), ∃ segs : List Str, segsOk segs ∧ segs ≠ [] ∧
    (acc.get ⟨j, hj⟩).1 = rootPre root ++ joinSegs segs ∧
    ∀ k, 1 ≤ k → k < segs.length →
      ∃ i, ∃ hi : i < acc.length, i < j ∧
        acc.get ⟨i, hi⟩ = (rootPre root ++ joinSegs (segs.take k), true)

/-- Full parser-state invariant. -/
def stInv (root : Str) (st : ParseState) : Prop :=
  ∃ extras : List Str,
    st.stack = root :: extras ∧ segsOk extras ∧
    (∀ k, 1 ≤ k → k ≤ extras.length →
      (rootPre root ++ joinSegs (extras.take k), true) ∈ st.acc) ∧
    accOk root st.acc

theorem accOk_snoc (root : Str) (acc : List (Str × Bool)) (e : Str × Bool)
    (h : accOk root acc)
    (he : ∃ segs : List Str, segsOk segs ∧ segs ≠ [] ∧
      e.1 = rootPre root ++ joinSegs segs ∧
      ∀ k, 1 ≤ k → k < segs.length →
        (rootPre root ++ joinSegs (segs.take k), true) ∈ acc) :
    accOk root (acc ++ [e]) := by
  intro j hj
  rw [List.length_append, List.length_singleton] at hj
  by_cases hlt : j < acc.length
  · obtain ⟨segs, h1, h2, h3, h4⟩ := h j hlt
    refine ⟨segs, h1, h2, ?_, ?_⟩
    · rw [List.get_eq_getElem, List.getElem_append_left hlt]
      rw [List.get_eq_getElem] at h3
      exact h3
    · intro k hk1 hk2
      obtain ⟨i, hi, hij, hget⟩ := h4 k hk1 hk2
      refine ⟨i, by rw [List.length_append, List.length_singleton]; omega, hij, ?_⟩
      rw [List.get_eq_getElem, List.getElem_append_left hi]
      rw [List.get_eq_getElem] at hget
      exact hget
  · have hje : j = acc.length := by omega
    obtain ⟨segs, h1, h2, h3, h4⟩ := he
    refine ⟨segs, h1, h2, ?_, ?_⟩
    · rw [List.get_eq_getElem]
      have : (acc ++ [e])[j] = e := by
        rw [List.getElem_append_right (by omega)]
        simp [hje]
      rw [this]
      exact h3
    · intro k hk1 hk2
      obtain ⟨i, hi, hget⟩ := List.getElem_of_mem (h4 k hk1 hk2)
      refine ⟨i, by rw [List.length_append, List.length_singleton]; omega, by omega, ?_⟩
      rw [List.get_eq_getElem, List.getElem_append_left hi]
      exact hget

theorem parseStep_inv (root : Str) (st : ParseState) (l : Str)
    (hroot : root.getLast? ≠ some '/')
    (hline : lineItemOk l = true) (hinv : stInv root st) :
    stInv root (parseStep st l) := by
  obtain ⟨extras, hstack, hsegs, hlink, hacc⟩ := hinv
  rcases hf : findBranch l with _ | ⟨pfx, item⟩
  · simpa only [parseStep, hf] using ⟨extras, hstack, hsegs, hlink, hacc⟩
  · have hitem := lineItemOk_elim hline hf
    have htrunc : truncateStack st.stack (pfx.length / 4 + 1) =
        root :: extras.take (pfx.length / 4) := by
      rw [truncateStack_eq_take, hstack, List.take_succ_cons]
    have htseg : segsOk (extras.take (pfx.length / 4)) :=
      fun x hx => hsegs x (List.mem_of_mem_take hx)
    have htake_eq : ∀ k, k ≤ (extras.take (pfx.length / 4)).length →
        (extras.take (pfx.length / 4)).take k = extras.take k := by
      intro k hk
      rw [List.length_take] at hk
      rw [List.take_take]
      congr 1
      omega
    have htlen : (extras.take (pfx.length / 4)).length ≤ extras.length := by
      rw [List.length_take]; omega
    have htlink : ∀ k, 1 ≤ k → k ≤ (extras.take (pfx.length / 4)).length →
        (rootPre root ++ joinSegs (extras.take k), true) ∈ st.acc := by
      intro k hk1 hk2
      exact hlink k hk1 (le_trans hk2 htlen)
    by_cases hd : item.getLast? = some '/'
    · simp only [parseStep, hf, if_pos hd]
      have hsegs' : segsOk (extras.take (pfx.length / 4) ++ [rstripSlashes item]) := by
        intro x hx
        rcases List.mem_append.mp hx with hx | hx
        · exact htseg x hx
        · rw [List.mem_singleton] at hx
          subst hx
          exact hitem
      have hform : pyJoinStack (root :: (extras.take (pfx.length / 4) ++ [rstripSlashes item])) =
          rootPre root ++ joinSegs (extras.take (pfx.length / 4) ++ [rstripSlashes item]) :=
        pyJoinStack_formula root _ hroot hsegs' (by simp)
      have hstack' : truncateStack st.stack (pfx.length / 4 + 1) ++ [rstripSlashes item] =
          root :: (extras.take (pfx.length / 4) ++ [rstripSlashes item]) := by
        rw [htrunc, List.cons_append]
      refine ⟨extras.take (pfx.length / 4) ++ [rstripSlashes item], hstack', hsegs', ?_, ?_⟩
      · intro k hk1 hk2
        rw [List.length_append, List.length_singleton] at hk2
        rw [hstack', hform]
        by_cases hk3 : k ≤ (extras.take (pfx.length / 4)).length
        · have h1 : (extras.take (pfx.length / 4) ++ [rstripSlashes item]).take k =
              extras.take k := by
            rw [List.take_append_of_le_length hk3, htake_eq k hk3]
          rw [h1]
          exact List.mem_append_left _ (htlink k hk1 hk3)
        · have h1 : (extras.take (pfx.length / 4) ++ [rstripSlashes item]).take k =
              extras.take (pfx.length / 4) ++ [rstripSlashes item] := by
            apply List.take_of_length_le
            rw [List.length_append, List.length_singleton]
            omega
          rw [h1]
          exact List.mem_append_right _ (List.mem_singleton.mpr rfl)
      · apply accOk_snoc root st.acc _ hacc
        refine ⟨extras.take (pfx.length / 4) ++ [rstripSlashes item], hsegs', by simp, ?_, ?_⟩
        · show pyJoinStack (truncateStack st.stack (pfx.length / 4 + 1) ++ [rstripSlashes item]) = _
          rw [hstack', hform]
        · intro k hk1 hk2
          rw [List.length_append, List.length_singleton] at hk2
          have hk3 : k ≤ (extras.take (pfx.length / 4)).length := by omega
          have h1 : (extras.take (pfx.length / 4) ++ [rstripSlashes item]).take k =
              extras.take k := by
            rw [List.take_append_of_le_length hk3, htake_eq k hk3]
          rw [h1]
          exact htlink k hk1 hk3
    · simp only [parseStep, hf, if_neg hd]
      have hitem' : item ≠ [] ∧ '/' ∉ item := by
        rw [← rstripSlashes_eq_self item hd]
        exact hitem
      have hsegsF : segsOk (extras.take (pfx.length / 4) ++ [item]) := by
        intro x hx
        rcases List.mem_append.mp hx with hx | hx
        · exact htseg x hx
        · rw [List.mem_singleton] at hx
          subst hx
          exact hitem'
      have hformF : pyJoinStack (root :: (extras.take (pfx.length / 4) ++ [item])) =
          rootPre root ++ joinSegs (extras.take (pfx.length / 4) ++ [item]) :=
        pyJoinStack_formula root _ hroot hsegsF (by simp)
      refine ⟨extras.take (pfx.length / 4), htrunc, htseg, ?_, ?_⟩
      · intro k hk1 hk2
        rw [htake_eq k hk2]
        exact List.mem_append_left _ (htlink k hk1 hk2)
      · apply accOk_snoc root st.acc _ hacc
        refine ⟨extras.take (pfx.length / 4) ++ [item], hsegsF, by simp, ?_, ?_⟩
        · show pyJoinStack (truncateStack st.stack (pfx.length / 4 + 1) ++ [item]) = _
          rw [htrunc, List.cons_append, hformF]
        · intro k hk1 hk2
          rw [List.length_append, List.length_singleton] at hk2
          have hk3 : k ≤ (extras.take (pfx.length / 4)).length := by omega
          have h1 : (extras.take (pfx.length / 4) ++ [item]).take k =
              extras.take k := by
            rw [List.take_append_of_le_length hk3, htake_eq k hk3]
          rw [h1]
          exact htlink k hk1 hk3

theorem foldl_parseStep_inv (root : Str) (hroot : root.getLast? ≠ some '/') :
    ∀ (ls : List Str) (st : ParseState), stInv root st →
      (∀ l ∈ ls, lineItemOk l = true) → stInv root (ls.foldl parseStep st) := by
  intro ls
  induction ls with
  | nil => intro st h _; exact h
  | cons l rest ih =>
    intro st h hls
    rw [List.foldl_cons]
    exact ih (parseStep st l) (parseStep_inv root st l hroot (hls l (by simp)) h)
      (fun x hx => hls x (List.mem_cons_of_mem l hx))

theorem accOk_conclusion (root : Str) (es : List (Str × Bool)) (h : accOk root es) :
    ∀ j (hj : j < es.length) (q : Str), (q, true) ∈ es →
      pathAbove q (es.get ⟨j, hj⟩).1 = true →
      ∃ i, ∃ hi : i < es.length, i < j ∧ es.get ⟨i, hi⟩ = (q, true) := by
  intro j hj q hq hpath
  obtain ⟨m, hm, hmeq⟩ := List.getElem_of_mem hq
  obtain ⟨segsM, hsM1, hsM2, hsM3, _⟩ := h m hm
  obtain ⟨segsJ, hsJ1, hsJ2, hsJ3, hsJ4⟩ := h j hj
  rw [pathAbove_iff] at hpath
  obtain ⟨r, hr⟩ := hpath
  rw [List.get_eq_getElem] at hsM3
  rw [hmeq] at hsM3
  have hq1 : q = rootPre root ++ joinSegs segsM := hsM3
  have hJ : joinSegs segsJ = joinSegs segsM ++ '/' :: r := by
    have h1 : rootPre root ++ joinSegs segsJ = (rootPre root ++ joinSegs segsM) ++ '/' :: r := by
      rw [← hsJ3, hr, hq1]
    rw [List.append_assoc] at h1
    exact List.append_cancel_left h1
  have habove := joinSegs_above segsM segsJ r hsM1 hsJ1 hsM2 hsJ2 hJ.symm
  have hlen1 : 1 ≤ segsM.length := List.length_pos.mpr hsM2
  obtain ⟨i, hi, hij, hget⟩ := hsJ4 segsM.length hlen1 habove.1
  refine ⟨i, hi, hij, ?_⟩
  rw [hget, habove.2, ← hq1]

/-- C6, amended: entries are emitted in document order, and provided every
matched item names a single non-empty slash-free segment, for every entry
whose path properly extends the path `q` of some directory entry, a
directory entry with path `q` occurs strictly earlier in the sequence.
(As stated — every occurrence of a directory entry preceding every entry it
prefixes — the claim fails, see the counterexample.) -/
theorem claim_C6_amended (s : Str)
    (hItems : ∀ l ∈ (splitLines (pyStrip s)).drop 1, lineItemOk l = true) :
    ∀ j (hj : j < (parseMarkdownTree s).length) (q : Str),
      (q, true) ∈ parseMarkdownTree s →
      pathAbove q ((parseMarkdownTree s).get ⟨j, hj⟩).1 = true →
      ∃ i, ∃ hi : i < (parseMarkdownTree s).length, i < j ∧
        (parseMarkdownTree s).get ⟨i, hi⟩ = (q, true) := by
  rcases hl : splitLines (pyStrip s) with _ | ⟨l0, rest⟩
  · have hes : parseMarkdownTree s = [] := by
      unfold parseMarkdownTree
      rw [hl]
    intro j hj
    rw [hes] at hj
    simp at hj
  · have hes : parseMarkdownTree s =
        (rest.foldl parseStep { stack := [rstripSlashes l0], acc := [] }).acc := by
      unfold parseMarkdownTree
      rw [hl]
    have hinv0 : stInv (rstripSlashes l0) { stack := [rstripSlashes l0], acc := [] } := by
      refine ⟨[], rfl, ?_, ?_, ?_⟩
      · intro x hx
        cases hx
      · intro k hk1 hk2
        simp at hk2
        omega
      · intro j hj
        simp at hj
    have hfold := foldl_parseStep_inv (rstripSlashes l0) (rstripSlashes_getLast? l0)
      rest _ hinv0 (by rw [hl] at hItems; simpa using hItems)
    obtain ⟨extras, _, _, _, haccOk⟩ := hfold
    rw [hes]
    exact accOk_conclusion (rstripSlashes l0) _ haccOk

/-- Witness for the amended C6 at the four-line example diagram: the
directory entry `proj/src` precedes the nested file entry at index 1. -/
theorem claim_C6_amended_witness :
    ∃ i, ∃ hi : i <
        (parseMarkdownTree ("proj/\n├── src/\n│   └── main.py\n└── README.md".data)).length,
      i < 1 ∧ (parseMarkdownTree
          ("proj/\n├── src/\n│   └── main.py\n└── README.md".data)).get ⟨i, hi⟩ =
        ("proj/src".data, true) :=
  claim_C6_amended ("proj/\n├── src/\n│   └── main.py\n└── README.md".data)
    (by decide) 1 (by decide) ("proj/src".data) (by decide) (by decide)

/-! ## Claim C1: the render/parse round trip -/

/-- Conditions on one entry name under which the round trip is provable:
ASCII (hence glyph-free), non-empty, slash-free, newline-free, not hidden,
not ignored, and no stripped leading/trailing whitespace. -/
def goodName (ig : List Str) (n : Str) : Prop :=
  n ≠ [] ∧ (∀ c ∈ n, c.toNat < 128) ∧ '/' ∉ n ∧ '\n' ∉ n ∧
  n.head? ≠ some '.' ∧ n ∉ ig ∧
  isPySpace (n.headD 'x') = false ∧ isPySpace (n.getLastD 'x') = false

instance (ig : List Str) (n : Str) : Decidable (goodName ig n) := by
  unfold goodName
  infer_instance

mutual

/-- Every name in the tree is good. -/
def goodTreeB (ig : List Str) : FSEntry → Bool
  | .file n => decide (goodName ig n)
  | .dir n cs => decide (goodName ig n) && goodTreeListB ig cs

def goodTreeListB (ig : List Str) : List FSEntry → Bool
  | [] => true
  | c :: cs => goodTreeB ig c && goodTreeListB ig cs

end

mutual

/-- Every name in the tree is ASCII (the hypothesis of C1 as stated;
ASCII names contain none of the reserved tree glyphs). -/
def treeAsciiB : FSEntry → Bool
  | .file n => n.all (fun c => decide (c.toNat < 128))
  | .dir n cs => n.all (fun c => decide (c.toNat < 128)) && treeAsciiListB cs

def treeAsciiListB : List FSEntry → Bool
  | [] => true
  | c :: cs => treeAsciiB c && treeAsciiListB cs

end

mutual

/-- All `(path, is_dir)` entries of the subtree rooted at an entry, the
entry itself included, with paths under the base path `B`. -/
def entriesUnder (B : Str) : FSEntry → List (Str × Bool)
  | .file n => [(B ++ '/' :: n, false)]
  | .dir n cs => (B ++ '/' :: n, true) :: entriesList (B ++ '/' :: n) cs

/-- Entries of a list of sibling subtrees. -/
def entriesList (B : Str) : List FSEntry → List (Str × Bool)
  | [] => []
  | c :: cs => entriesUnder B c ++ entriesList B cs

end

theorem goodTreeListB_elim {ig : List Str} : ∀ {cs : List FSEntry},
    goodTreeListB ig cs = true → ∀ c ∈ cs, goodTreeB ig c = true := by
  intro cs
  induction cs with
  | nil => intro _ c hc; cases hc
  | cons x xs ih =>
    intro h c hc
    rw [show goodTreeListB ig (x :: xs) = (goodTreeB ig x && goodTreeListB ig xs) from rfl,
      Bool.and_eq_true] at h
    rcases List.mem_cons.mp hc with rfl | hc
    · exact h.1
    · exact ih h.2 c hc

theorem goodTreeB_dir_elim {ig : List Str} {n : Str} {cs : List FSEntry}
    (h : goodTreeB ig (.dir n cs) = true) :
    goodName ig n ∧ goodTreeListB ig cs = true := by
  rw [show goodTreeB ig (.dir n cs) = (decide (goodName ig n) && goodTreeListB ig cs)
    from rfl, Bool.and_eq_true] at h
  exact ⟨of_decide_eq_true h.1, h.2⟩

theorem goodTreeB_file_elim {ig : List Str} {n : Str}
    (h : goodTreeB ig (.file n) = true) : goodName ig n :=
  of_decide_eq_true h

/-- A good name passes the hidden/ignored filter. -/
theorem goodName_keep {ig : List Str} {n : Str} (h : goodName ig n) :
    keepName ig n = true := by
  obtain ⟨_, _, _, _, h5, h6, _, _⟩ := h
  simp [keepName, h5, h6]

theorem pyJoinStack_single (root : Str) : pyJoinStack [root] = root := rfl

theorem pyJoinStack_snoc (s : List Str) (B n : Str) (hs : s ≠ [])
    (hj : pyJoinStack s = B) (hB : B ≠ []) (hBl : B.getLast? ≠ some '/')
    (hn : n.head? ≠ some '/') :
    pyJoinStack (s ++ [n]) = B ++ '/' :: n := by
  cases s with
  | nil => exact absurd rfl hs
  | cons p rest =>
    show pyJoinList p (rest ++ [n]) = B ++ '/' :: n
    unfold pyJoinList
    rw [List.foldl_append]
    have h1 : List.foldl pyJoin1 p rest = B := hj
    rw [h1]
    show pyJoin1 B n = B ++ '/' :: n
    unfold pyJoin1
    rw [if_neg hn, if_neg (by rintro (h | h); exact hB h; exact hBl h)]

theorem rstripSlashes_append_slash (n : Str) (h : '/' ∉ n) :
    rstripSlashes (n ++ ['/']) = n := by
  unfold rstripSlashes
  rw [List.reverse_append]
  show (List.dropWhile (fun c => decide (c = '/')) ('/' :: n.reverse)).reverse = n
  rw [List.dropWhile_cons, if_pos (by simp)]
  have h2 : List.dropWhile (fun c => decide (c = '/')) n.reverse = n.reverse := by
    cases hr : n.reverse with
    | nil => rfl
    | cons c t =>
      rw [List.dropWhile_cons, if_neg ?_]
      have hc : c ∈ n := by
        rw [← List.mem_reverse, hr]
        exact List.mem_cons_self c t
      simp only [decide_eq_true_eq]
      intro hcs
      exact h (hcs ▸ hc)
  rw [h2, List.reverse_reverse]

/-- On a rendered line — glyph-free indentation, branch glyph, item — the
parser's pattern match recovers exactly the indentation and the item. -/
theorem findBranch_render : ∀ (pfx : Str), (∀ c ∈ pfx, c = ' ' ∨ c = '│') →
    ∀ (g : Char) (rest' : Str), (g = '└' ∨ g = '├') → rest' ≠ [] →
    findBranch (pfx ++ g :: '─' :: '─' :: ' ' :: rest') = some (pfx, rest') := by
  intro pfx
  induction pfx with
  | nil =>
    intro _ g rest' hg hne
    show findBranch (g :: '─' :: '─' :: ' ' :: rest') = some ([], rest')
    unfold findBranch
    rw [if_pos ⟨hg, rfl, by
      simp only [List.length_cons]
      have := List.length_pos.mpr hne
      omega⟩]
    simp
  | cons c pfx ih =>
    intro hchars g rest' hg hne
    have hc := hchars c (List.mem_cons_self c pfx)
    show findBranch (c :: (pfx ++ g :: '─' :: '─' :: ' ' :: rest')) = _
    unfold findBranch
    rw [if_neg (by
      rintro ⟨h1 | h1, _, _⟩ <;> rcases hc with hc | hc <;> subst h1 <;>
        revert hc <;> decide)]
    rw [ih (fun x hx => hchars x (List.mem_cons_of_mem c hx)) g rest' hg hne]

theorem findBranch_fileLine (cpfx : Str) (hch : ∀ c ∈ cpfx, c = ' ' ∨ c = '│')
    (b : Bool) (n : Str) (hn : n ≠ []) :
    findBranch (fileLine cpfx b n) = some (cpfx, n) := by
  unfold fileLine
  cases b
  · rw [if_neg (by simp), List.append_assoc]
    exact findBranch_render cpfx hch '├' n (Or.inr rfl) hn
  · rw [if_pos rfl, List.append_assoc]
    exact findBranch_render cpfx hch '└' n (Or.inl rfl) hn

theorem splitLines_ne_nil : ∀ s : Str, splitLines s ≠ []
  | [] => by simp [splitLines]
  | c :: rest => by
    unfold splitLines
    by_cases h : c = '\n'
    · rw [if_pos h]; simp
    · rw [if_neg h]
      rcases hs : splitLines rest with _ | ⟨l, ls⟩
      · simp
      · simp

theorem splitLines_no_newline : ∀ l : Str, '\n' ∉ l → splitLines l = [l]
  | [], _ => rfl
  | c :: rest, h => by
    unfold splitLines
    rw [if_neg (by intro hc; exact h (hc ▸ List.mem_cons_self c rest))]
    rw [splitLines_no_newline rest (fun hm => h (List.mem_cons_of_mem c hm))]

theorem splitLines_append_newline : ∀ (l t : Str), '\n' ∉ l →
    splitLines (l ++ '\n' :: t) = l :: splitLines t
  | [], t, _ => by
    show splitLines ('\n' :: t) = [] :: splitLines t
    rw [splitLines]
    rw [if_pos rfl]
  | c :: l', t, h => by
    show splitLines (c :: (l' ++ '\n' :: t)) = _
    rw [splitLines]
    rw [if_neg (by intro hc; exact h (hc ▸ List.mem_cons_self c l'))]
    rw [splitLines_append_newline l' t (fun hm => h (List.mem_cons_of_mem c hm))]

theorem splitLines_joinLines : ∀ (L : List Str), L ≠ [] → (∀ l ∈ L, '\n' ∉ l) →
    splitLines (joinLines L) = L
  | [], h, _ => absurd rfl h
  | [l], _, hnl => by
    show splitLines (joinLines [l]) = [l]
    rw [show joinLines [l] = l from rfl]
    exact splitLines_no_newline l (hnl l (by simp))
  | l :: l' :: L', _, hnl => by
    show splitLines (l ++ '\n' :: joinLines (l' :: L')) = _
    rw [splitLines_append_newline l _ (hnl l (by simp)),
      splitLines_joinLines (l' :: L') (by simp)
        (fun x hx => hnl x (List.mem_cons_of_mem l hx))]

theorem joinLines_ne_nil : ∀ (L : List Str), L ≠ [] → (∀ l ∈ L, l ≠ []) →
    joinLines L ≠ []
  | [], h, _ => absurd rfl h
  | [l], _, hne => by
    show joinLines [l] ≠ []
    rw [show joinLines [l] = l from rfl]
    exact hne l (by simp)
  | l :: l' :: L', _, hne => by
    show l ++ '\n' :: joinLines (l' :: L') ≠ []
    simp

theorem joinLines_head? (l : Str) (L : List Str) (h : l ≠ []) :
    (joinLines (l :: L)).head? = l.head? := by
  cases L with
  | nil => rfl
  | cons l' L' =>
    show (l ++ '\n' :: joinLines (l' :: L')).head? = l.head?
    rw [List.head?_append]
    cases l with
    | nil => exact absurd rfl h
    | cons c t => rfl

theorem joinLines_getLast_prop (P : Char → Prop) : ∀ (L : List Str),
    (∀ l ∈ L, l ≠ [] ∧ ∀ c, l.getLast? = some c → P c) →
    ∀ c, (joinLines L).getLast? = some c → P c
  | [], _, c, hc => by cases hc
  | [l], hL, c, hc => (hL l (by simp)).2 c hc
  | l :: l' :: L', hL, c, hc => by
    have hrec := joinLines_getLast_prop P (l' :: L')
      (fun x hx => hL x (List.mem_cons_of_mem l hx))
    apply hrec c
    have hnn : joinLines (l' :: L') ≠ [] :=
      joinLines_ne_nil _ (by simp) (fun x hx => (hL x (List.mem_cons_of_mem l hx)).1)
    have hc' : (l ++ '\n' :: joinLines (l' :: L')).getLast? = some c := hc
    rw [List.getLast?_append] at hc'
    rcases hj : ('\n' :: joinLines (l' :: L')).getLast? with _ | d
    · rw [List.getLast?_eq_none_iff] at hj
      cases hj
    · rw [hj] at hc'
      simp only [Option.or_some, Option.some.injEq] at hc'
      subst hc'
      rcases hjj : joinLines (l' :: L') with _ | ⟨a, as⟩
      · exact absurd hjj hnn
      · rw [hjj, List.getLast?_cons_cons] at hj
        exact hj

theorem dropWhile_eq_self_of_head (p : Char → Bool) (s : Str)
    (h : ∀ c, s.head? = some c → p c = false) : List.dropWhile p s = s := by
  cases s with
  | nil => rfl
  | cons c t =>
    rw [List.dropWhile_cons, if_neg (by rw [h c rfl]; simp)]

theorem pyStrip_eq_self (s : Str)
    (hh : ∀ c, s.head? = some c → isPySpace c = false)
    (hl : ∀ c, s.getLast? = some c → isPySpace c = false) : pyStrip s = s := by
  unfold pyStrip
  rw [dropWhile_eq_self_of_head isPySpace s hh]
  rw [dropWhile_eq_self_of_head isPySpace s.reverse
    (fun c hc => hl c (by rw [← List.head?_reverse]; exact hc))]
  exact List.reverse_reverse s

theorem entriesList_append (B : Str) : ∀ (l₁ l₂ : List FSEntry),
    entriesList B (l₁ ++ l₂) = entriesList B l₁ ++ entriesList B l₂
  | [], l₂ => rfl
  | c :: l₁, l₂ => by
    show entriesUnder B c ++ entriesList B (l₁ ++ l₂) = _
    rw [entriesList_append B l₁ l₂]
    rw [show entriesList B (c :: l₁) = entriesUnder B c ++ entriesList B l₁ from rfl]
    rw [List.append_assoc]

theorem entriesList_perm (B : Str) {l₁ l₂ : List FSEntry} (h : l₁.Perm l₂) :
    (entriesList B l₁).Perm (entriesList B l₂) := by
  induction h with
  | nil => exact List.Perm.refl _
  | cons x _ ih =>
    show (entriesUnder B x ++ _).Perm (entriesUnder B x ++ _)
    exact ih.append_left _
  | swap x y l =>
    show (entriesUnder B y ++ (entriesUnder B x ++ entriesList B l)).Perm
      (entriesUnder B x ++ (entriesUnder B y ++ entriesList B l))
    rw [← List.append_assoc, ← List.append_assoc]
    exact (List.perm_append_comm).append_right _
  | trans _ _ ih1 ih2 => exact ih1.trans ih2

theorem entriesList_files (B : Str) : ∀ (fs : List FSEntry),
    (∀ x ∈ fs, x.isDir = false) →
    entriesList B fs = fs.map (fun f => (B ++ '/' :: f.name, false))
  | [], _ => rfl
  | x :: fs, h => by
    cases x with
    | dir n cs =>
      have := h _ (List.mem_cons_self _ _)
      simp [FSEntry.isDir] at this
    | file n =>
      show entriesUnder B (.file n) ++ entriesList B fs = _
      rw [entriesList_files B fs (fun y hy => h y (List.mem_cons_of_mem _ hy))]
      rfl

theorem mem_of_mem_childItems {c : FSEntry} {cs : List FSEntry} {ig : List Str}
    (h : c ∈ childItems cs ig) : c ∈ cs :=
  (List.perm_insertionSort nameLe cs).mem_iff.mp (List.mem_of_mem_filter h)

theorem goodTree_of_mem_dirsOf {x : FSEntry} {cs : List FSEntry} {ig : List Str}
    (hgood : goodTreeListB ig cs = true) (hx : x ∈ dirsOf cs ig) :
    goodTreeB ig x = true :=
  goodTreeListB_elim hgood x (mem_of_mem_childItems (List.mem_of_mem_filter hx))

theorem goodTree_of_mem_filesOf {x : FSEntry} {cs : List FSEntry} {ig : List Str}
    (hgood : goodTreeListB ig cs = true) (hx : x ∈ filesOf cs ig) :
    goodTreeB ig x = true :=
  goodTreeListB_elim hgood x (mem_of_mem_childItems (List.mem_of_mem_filter hx))

theorem goodName_of_file {ig : List Str} {x : FSEntry} (hdir : x.isDir = false)
    (hgood : goodTreeB ig x = true) : goodName ig x.name := by
  cases x with
  | dir n cs => simp [FSEntry.isDir] at hdir
  | file n => exact goodTreeB_file_elim hgood

theorem sizeOf_pos (e : FSEntry) : 0 < sizeOf e := by
  cases e with
  | dir n cs => simp only [FSEntry.dir.sizeOf_spec]; omega
  | file n => simp only [FSEntry.file.sizeOf_spec]; omega

theorem sizeOf_of_mem_dirsOf {x : FSEntry} {n : Str} {cs : List FSEntry} {ig : List Str}
    (hx : x ∈ dirsOf cs ig) : sizeOf x < sizeOf (FSEntry.dir n cs) := by
  have h1 : sizeOf x < sizeOf (dirsOf cs ig) := List.sizeOf_lt_of_mem hx
  have h2 := sizeOf_dirsOf_le cs ig
  simp only [FSEntry.dir.sizeOf_spec]
  omega

/-- The character-level shape of every rendered line: non-empty, free of
newlines, and ending in a non-whitespace character. -/
theorem scanLines_chars (ig : List Str) : ∀ (N : Nat) (e : FSEntry), sizeOf e ≤ N →
    goodTreeB ig e = true →
    ∀ (d : Nat) (isLast : Bool) (pfx : Str), (∀ c ∈ pfx, c = ' ' ∨ c = '│') →
    ∀ l ∈ scanDirectory e d isLast pfx ig,
      l ≠ [] ∧ '\n' ∉ l ∧ ∀ c, l.getLast? = some c → isPySpace c = false := by
  intro N
  induction N with
  | zero =>
    intro e hsz
    have := sizeOf_pos e
    omega
  | succ N ih =>
    intro e hsz hgood d isLast pfx hpfx l hl
    cases e with
    | file n =>
      rw [scanDirectory_file] at hl
      cases hl
    | dir n cs =>
      obtain ⟨hname, hlist⟩ := goodTreeB_dir_elim hgood
      obtain ⟨hn1, _, hn3, hn4, _, _, _, hn8⟩ := hname
      rw [scanDirectory_dir] at hl
      have hsp : ∀ c ∈ ("    ".data : Str), c = ' ' ∨ c = '│' := by decide
      have hvb : ∀ c ∈ ("│   ".data : Str), c = ' ' ∨ c = '│' := by decide
      have hg1 : ∀ c ∈ ("├── ".data : Str), c ≠ '\n' := by decide
      have hg2 : ∀ c ∈ ("└── ".data : Str), c ≠ '\n' := by decide
      have hcpfx : ∀ c ∈ (if 0 < d then
          (if isLast then pfx ++ "    ".data else pfx ++ "│   ".data) else ([] : Str)),
          c = ' ' ∨ c = '│' := by
        intro c hc
        by_cases hd0 : 0 < d
        · rw [if_pos hd0] at hc
          cases isLast
          · rw [if_neg (by simp)] at hc
            rcases List.mem_append.mp hc with hc | hc
            · exact hpfx c hc
            · exact hvb c hc
          · rw [if_pos rfl] at hc
            rcases List.mem_append.mp hc with hc | hc
            · exact hpfx c hc
            · exact hsp c hc
        · rw [if_neg hd0] at hc
          cases hc
      rcases List.mem_cons.mp hl with rfl | hl
      · refine ⟨?_, ?_, ?_⟩
        · by_cases hd0 : d = 0
          · rw [if_pos hd0]
            simp
          · rw [if_neg hd0]
            cases isLast <;> simp
        · intro hmem
          by_cases hd0 : d = 0
          · rw [if_pos hd0] at hmem
            rcases List.mem_append.mp hmem with hm | hm
            · exact hn4 hm
            · simp at hm
          · rw [if_neg hd0] at hmem
            have hglyph : ∀ G : Str, (∀ c ∈ G, c ≠ '\n') →
                '\n' ∈ pfx ++ G ++ n ++ ['/'] → False := by
              intro G hG hm
              rcases List.mem_append.mp hm with hm | hm
              · rcases List.mem_append.mp hm with hm | hm
                · rcases List.mem_append.mp hm with hm | hm
                  · rcases hpfx _ hm with h | h <;> exact absurd h (by decide)
                  · exact hG _ hm rfl
                · exact hn4 hm
              · simp at hm
            cases isLast
            · rw [if_neg (by simp)] at hmem
              exact hglyph _ hg1 hmem
            · rw [if_pos rfl] at hmem
              exact hglyph _ hg2 hmem
        · intro c hc
          by_cases hd0 : d = 0
          · rw [if_pos hd0, List.getLast?_concat] at hc
            cases hc
            decide
          · rw [if_neg hd0] at hc
            cases isLast
            · rw [if_neg (by simp), List.getLast?_concat] at hc
              cases hc
              decide
            · rw [if_pos rfl, List.getLast?_concat] at hc
              cases hc
              decide
      rcases List.mem_append.mp hl with hl | hl
      · have hdirs : ∀ (ds : List FSEntry),
            (∀ x ∈ ds, sizeOf x ≤ N ∧ goodTreeB ig x = true) →
            ∀ (nf : Bool), ∀ l₂ ∈ scanDirs ds nf (d + 1)
              (if 0 < d then
                (if isLast then pfx ++ "    ".data else pfx ++ "│   ".data)
              else ([] : Str)) ig,
              l₂ ≠ [] ∧ '\n' ∉ l₂ ∧ ∀ c, l₂.getLast? = some c → isPySpace c = false := by
          intro ds
          induction ds with
          | nil =>
            intro _ nf l₂ hl₂
            rw [show scanDirs [] nf (d+1) _ ig = [] from rfl] at hl₂
            cases hl₂
          | cons x rest ihds =>
            intro hxs nf l₂ hl₂
            cases rest with
            | nil =>
              rw [show scanDirs [x] nf (d+1) _ ig =
                scanDirectory x (d+1) nf _ ig from rfl] at hl₂
              exact ih x (hxs x (by simp)).1 (hxs x (by simp)).2 (d+1) nf _ hcpfx l₂ hl₂
            | cons y r =>
              rw [show scanDirs (x :: y :: r) nf (d+1) _ ig =
                scanDirectory x (d+1) false _ ig ++ scanDirs (y :: r) nf (d+1) _ ig
                from rfl] at hl₂
              rcases List.mem_append.mp hl₂ with hm | hm
              · exact ih x (hxs x (by simp)).1 (hxs x (by simp)).2 (d+1) false _ hcpfx l₂ hm
              · exact ihds (fun z hz => hxs z (List.mem_cons_of_mem x hz)) nf l₂ hm
        apply hdirs (dirsOf cs ig) ?_ (filesOf cs ig).isEmpty l hl
        intro x hx
        refine ⟨?_, goodTree_of_mem_dirsOf hlist hx⟩
        have := sizeOf_of_mem_dirsOf (n := n) hx
        omega
      · have hfiles : ∀ (fs : List FSEntry), (∀ x ∈ fs, goodName ig x.name) →
            ∀ l₂ ∈ fileLines (if 0 < d then
                (if isLast then pfx ++ "    ".data else pfx ++ "│   ".data)
              else ([] : Str)) fs,
              l₂ ≠ [] ∧ '\n' ∉ l₂ ∧ ∀ c, l₂.getLast? = some c → isPySpace c = false := by
          intro fs
          induction fs with
          | nil =>
            intro _ l₂ hl₂
            cases hl₂
          | cons x rest ihfs =>
            intro hxs l₂ hl₂
            have hxname := hxs x (by simp)
            obtain ⟨hx1, _, _, hx4, _, _, _, hx8⟩ := hxname
            have hone : ∀ b : Bool,
                fileLine (if 0 < d then
                  (if isLast then pfx ++ "    ".data else pfx ++ "│   ".data)
                else ([] : Str)) b x.name ≠ [] ∧
                '\n' ∉ fileLine (if 0 < d then
                  (if isLast then pfx ++ "    ".data else pfx ++ "│   ".data)
                else ([] : Str)) b x.name ∧
                ∀ c, (fileLine (if 0 < d then
                  (if isLast then pfx ++ "    ".data else pfx ++ "│   ".data)
                else ([] : Str)) b x.name).getLast? = some c → isPySpace c = false := by
              intro b
              unfold fileLine
              have hmemG : ∀ (G : Str), (∀ c ∈ G, c ≠ '\n') →
                  '\n' ∉ (if 0 < d then
                    (if isLast then pfx ++ "    ".data else pfx ++ "│   ".data)
                  else ([] : Str)) ++ G ++ x.name := by
                intro G hG hm
                rcases List.mem_append.mp hm with hm | hm
                · rcases List.mem_append.mp hm with hm | hm
                  · rcases hcpfx _ hm with h | h <;> exact absurd h (by decide)
                  · exact hG _ hm rfl
                · exact hx4 hm
              have hlastG : ∀ (Y : Str) (c : Char), (Y ++ x.name).getLast? = some c →
                  isPySpace c = false := by
                intro Y c hY
                rw [List.getLast?_append] at hY
                rcases hxn : x.name.getLast? with _ | c0
                · rw [List.getLast?_eq_none_iff] at hxn
                  exact absurd hxn hx1
                · rw [hxn] at hY
                  simp only [Option.or_some, Option.some.injEq] at hY
                  subst hY
                  have hzz : x.name.getLastD 'x' = c0 := by
                    rw [List.getLastD_eq_getLast?, hxn]
                    rfl
                  rw [← hzz]
                  exact hx8
              cases b
              · rw [if_neg (by simp)]
                exact ⟨by simp [hx1], hmemG _ hg1, hlastG _⟩
              · rw [if_pos rfl]
                exact ⟨by simp [hx1], hmemG _ hg2, hlastG _⟩
            cases rest with
            | nil => exact (List.mem_singleton.mp hl₂) ▸ hone true
            | cons y r =>
              rcases List.mem_cons.mp hl₂ with rfl | hm
              · exact hone false
              · exact ihfs (fun z hz => hxs z (List.mem_cons_of_mem x hz)) l₂ hm
        apply hfiles (filesOf cs ig) ?_ l hl
        intro x hx
        exact goodName_of_file (by simpa using (List.mem_filter.mp hx).2)
          (goodTree_of_mem_filesOf hlist hx)

theorem getLast?_slash_name (X n : Str) (hn : n ≠ []) (hns : '/' ∉ n) :
    (X ++ '/' :: n).getLast? ≠ some '/' := by
  rw [List.getLast?_append]
  rcases hg : ('/' :: n).getLast? with _ | c
  · rw [List.getLast?_eq_none_iff] at hg
    cases hg
  · intro h
    simp only [Option.or_some, Option.some.injEq] at h
    subst h
    have h2 : ('/' :: n).getLast? = n.getLast? := by
      cases n with
      | nil => exact absurd rfl hn
      | cons a as => rw [List.getLast?_cons_cons]
    rw [h2] at hg
    exact hns (List.mem_of_mem_getLast? hg)

/-- Effect of the parser on a rendered directory header line. -/
theorem parseStep_dir_header (stack : List Str) (acc : List (Str × Bool))
    (pfx n B : Str) (d : Nat) (isLast : Bool)
    (hplen : pfx.length = 4 * (d - 1)) (hd1 : 1 ≤ d)
    (hpfx : ∀ c ∈ pfx, c = ' ' ∨ c = '│')
    (hj : pyJoinStack (stack.take d) = B) (hne : stack.take d ≠ [])
    (hB : B ≠ []) (hBl : B.getLast? ≠ some '/') (_hn1 : n ≠ []) (hn3 : '/' ∉ n) :
    parseStep ⟨stack, acc⟩ (if isLast then pfx ++ "└── ".data ++ n ++ ['/']
      else pfx ++ "├── ".data ++ n ++ ['/']) =
      ⟨stack.take d ++ [n], acc ++ [(B ++ '/' :: n, true)]⟩ := by
  have hfb : findBranch (if isLast then pfx ++ "└── ".data ++ n ++ ['/']
      else pfx ++ "├── ".data ++ n ++ ['/']) = some (pfx, n ++ ['/']) := by
    cases isLast
    · rw [if_neg (by simp), List.append_assoc, List.append_assoc]
      exact findBranch_render pfx hpfx '├' (n ++ ['/']) (Or.inr rfl) (by simp)
    · rw [if_pos rfl, List.append_assoc, List.append_assoc]
      exact findBranch_render pfx hpfx '└' (n ++ ['/']) (Or.inl rfl) (by simp)
  have hnhead : n.head? ≠ some '/' := by
    intro h
    exact hn3 (List.mem_of_mem_head? h)
  have hlevel : pfx.length / 4 + 1 = d := by omega
  simp only [parseStep, hfb]
  rw [if_pos (List.getLast?_concat n)]
  rw [truncateStack_eq_take, hlevel, rstripSlashes_append_slash n hn3]
  rw [pyJoinStack_snoc (stack.take d) B n hne hj hB hBl hnhead]

/-- Effect of the parser on a rendered file line. -/
theorem parseStep_file_line (stack : List Str) (acc : List (Str × Bool))
    (cpfx fname B : Str) (d : Nat) (bflag : Bool)
    (hplen : cpfx.length = 4 * d) (hch : ∀ c ∈ cpfx, c = ' ' ∨ c = '│')
    (hj : pyJoinStack (stack.take (d + 1)) = B) (hne : stack.take (d + 1) ≠ [])
    (hB : B ≠ []) (hBl : B.getLast? ≠ some '/')
    (hf1 : fname ≠ []) (hf3 : '/' ∉ fname) :
    parseStep ⟨stack, acc⟩ (fileLine cpfx bflag fname) =
      ⟨stack.take (d + 1), acc ++ [(B ++ '/' :: fname, false)]⟩ := by
  have hfb := findBranch_fileLine cpfx hch bflag fname hf1
  have hnhead : fname.head? ≠ some '/' := by
    intro h
    exact hf3 (List.mem_of_mem_head? h)
  have hlevel : cpfx.length / 4 + 1 = d + 1 := by omega
  simp only [parseStep, hfb]
  rw [if_neg (by
    intro h
    exact hf3 (List.mem_of_mem_getLast? h))]
  rw [truncateStack_eq_take, hlevel]
  rw [pyJoinStack_snoc (stack.take (d + 1)) B fname hne hj hB hBl hnhead]

theorem goodName_of_tree {ig : List Str} {x : FSEntry} (h : goodTreeB ig x = true) :
    goodName ig x.name := by
  cases x with
  | dir n cs => exact (goodTreeB_dir_elim h).1
  | file n => exact goodTreeB_file_elim h

/-- The simulation at the heart of the round trip: parsing the rendered
lines of a good subtree appends exactly its entries (up to the ordering of
siblings) and leaves the stack opened at the subtree's directory. -/
theorem render_parse_sim (ig : List Str) : ∀ (N : Nat) (e : FSEntry), sizeOf e ≤ N →
    goodTreeB ig e = true → e.isDir = true →
    ∀ (d : Nat) (isLast : Bool) (pfx : Str) (stack : List Str)
      (acc : List (Str × Bool)) (B : Str),
    1 ≤ d → pfx.length = 4 * (d - 1) → (∀ c ∈ pfx, c = ' ' ∨ c = '│') →
    d ≤ stack.length → pyJoinStack (stack.take d) = B → stack.take d ≠ [] →
    B ≠ [] → B.getLast? ≠ some '/' →
    ∃ (stack' : List Str) (newE : List (Str × Bool)),
      List.foldl parseStep ⟨stack, acc⟩ (scanDirectory e d isLast pfx ig) =
        ⟨stack', acc ++ newE⟩ ∧
      newE.Perm (entriesUnder B e) ∧
      stack'.take (d + 1) = stack.take d ++ [e.name] ∧ d + 1 ≤ stack'.length := by
  intro N
  induction N with
  | zero =>
    intro e hsz
    have := sizeOf_pos e
    omega
  | succ N ih =>
    intro e hsz hgood hisdir d isLast pfx stack acc B hd1 hplen hpfx hdlen hj hne hB hBl
    cases e with
    | file n => simp [FSEntry.isDir] at hisdir
    | dir n cs =>
      obtain ⟨hname, hlist⟩ := goodTreeB_dir_elim hgood
      obtain ⟨hn1, _, hn3, _, _, _, _, _⟩ := hname
      rw [scanDirectory_dir]
      rw [if_neg (show ¬d = 0 by omega), if_pos (show 0 < d by omega)]
      rw [List.foldl_cons]
      rw [parseStep_dir_header stack acc pfx n B d isLast hplen hd1 hpfx hj hne hB hBl hn1 hn3]
      -- facts about the new top of the stack
      have hslen : (stack.take d).length = d := by
        rw [List.length_take]
        omega
      have hs1len : (stack.take d ++ [n]).length = d + 1 := by
        rw [List.length_append, List.length_singleton, hslen]
      have hbne : (B ++ '/' :: n : Str) ≠ [] := by simp
      have hbLast : (B ++ '/' :: n).getLast? ≠ some '/' := getLast?_slash_name B n hn1 hn3
      have hsnoc : pyJoinStack (stack.take d ++ [n]) = B ++ '/' :: n :=
        pyJoinStack_snoc (stack.take d) B n hne hj hB hBl
          (fun h => hn3 (List.mem_of_mem_head? h))
      -- facts about the child indentation
      have hCPlen : (if isLast then pfx ++ "    ".data else pfx ++ "│   ".data).length =
          4 * d := by
        cases isLast
        · rw [if_neg (by simp), List.length_append, hplen]
          show 4 * (d - 1) + 4 = 4 * d
          omega
        · rw [if_pos rfl, List.length_append, hplen]
          show 4 * (d - 1) + 4 = 4 * d
          omega
      have hspace : ∀ c ∈ ("    ".data : Str), c = ' ' ∨ c = '│' := by decide
      have hvbar : ∀ c ∈ ("│   ".data : Str), c = ' ' ∨ c = '│' := by decide
      have hCPch : ∀ c ∈ (if isLast then pfx ++ "    ".data else pfx ++ "│   ".data),
          c = ' ' ∨ c = '│' := by
        intro c hc
        cases isLast
        · rw [if_neg (by simp)] at hc
          rcases List.mem_append.mp hc with hc | hc
          · exact hpfx c hc
          · exact hvbar c hc
        · rw [if_pos rfl] at hc
          rcases List.mem_append.mp hc with hc | hc
          · exact hpfx c hc
          · exact hspace c hc
      -- the subdirectory blocks
      have hdirsim : ∀ (ds : List FSEntry),
          (∀ x ∈ ds, sizeOf x ≤ N ∧ goodTreeB ig x = true ∧ x.isDir = true) →
          ∀ (nf : Bool) (stack2 : List Str) (acc2 : List (Str × Bool)),
            d + 1 ≤ stack2.length → stack2.take (d + 1) = stack.take d ++ [n] →
            ∃ stack3 newE,
              List.foldl parseStep ⟨stack2, acc2⟩ (scanDirs ds nf (d + 1)
                (if isLast then pfx ++ "    ".data else pfx ++ "│   ".data) ig) =
                ⟨stack3, acc2 ++ newE⟩ ∧
              newE.Perm (entriesList (B ++ '/' :: n) ds) ∧
              stack3.take (d + 1) = stack.take d ++ [n] ∧ d + 1 ≤ stack3.length := by
        intro ds
        induction ds with
        | nil =>
          intro _ nf stack2 acc2 hlen2 htake2
          refine ⟨stack2, [], ?_, List.Perm.refl _, htake2, hlen2⟩
          rw [show scanDirs [] nf (d+1) _ ig = [] from rfl, List.foldl_nil,
            List.append_nil]
        | cons x rest ihds =>
          intro hxs nf stack2 acc2 hlen2 htake2
          have hx := hxs x (by simp)
          have happly : ∀ (fl : Bool), ∃ stack3 newE,
              List.foldl parseStep ⟨stack2, acc2⟩ (scanDirectory x (d + 1) fl
                (if isLast then pfx ++ "    ".data else pfx ++ "│   ".data) ig) =
                ⟨stack3, acc2 ++ newE⟩ ∧
              newE.Perm (entriesUnder (B ++ '/' :: n) x) ∧
              stack3.take (d + 1) = stack.take d ++ [n] ∧ d + 1 ≤ stack3.length := by
            intro fl
            have hjj : pyJoinStack (stack2.take (d + 1)) = B ++ '/' :: n := by
              rw [htake2, hsnoc]
            obtain ⟨stack3, newE, heq, hperm, htk, hln⟩ :=
              ih x hx.1 hx.2.1 hx.2.2 (d + 1) fl _ stack2 acc2 (B ++ '/' :: n)
                (by omega) (by rw [hCPlen]; omega) hCPch hlen2 hjj
                (by rw [htake2]; simp) hbne hbLast
            refine ⟨stack3, newE, heq, hperm, ?_, by omega⟩
            have h1 : stack3.take (d + 1) = (stack3.take (d + 1 + 1)).take (d + 1) := by
              rw [List.take_take]
              congr 1
              omega
            rw [h1, htk, htake2]
            rw [List.take_append_of_le_length (by rw [hs1len])]
            rw [← hs1len]
            exact List.take_length _
          cases rest with
          | nil =>
            rw [show scanDirs [x] nf (d+1)
              (if isLast then pfx ++ "    ".data else pfx ++ "│   ".data) ig =
              scanDirectory x (d+1) nf _ ig from rfl]
            obtain ⟨stack3, newE, heq, hperm, htk, hln⟩ := happly nf
            refine ⟨stack3, newE, heq, ?_, htk, hln⟩
            show newE.Perm (entriesUnder (B ++ '/' :: n) x ++ entriesList (B ++ '/' :: n) [])
            rw [show entriesList (B ++ '/' :: n) ([] : List FSEntry) = [] from rfl,
              List.append_nil]
            exact hperm
          | cons y r =>
            rw [show scanDirs (x :: y :: r) nf (d+1)
              (if isLast then pfx ++ "    ".data else pfx ++ "│   ".data) ig =
              scanDirectory x (d+1) false _ ig ++ scanDirs (y :: r) nf (d+1) _ ig
              from rfl]
            rw [List.foldl_append]
            obtain ⟨stack3, newE, heq, hperm, htk, hln⟩ := happly false
            rw [heq]
            obtain ⟨stack4, newE2, heq2, hperm2, htk2, hln2⟩ :=
              ihds (fun z hz => hxs z (List.mem_cons_of_mem x hz)) nf stack3
                (acc2 ++ newE) hln htk
            refine ⟨stack4, newE ++ newE2, ?_, ?_, htk2, hln2⟩
            · rw [heq2, List.append_assoc]
            · show (newE ++ newE2).Perm
                (entriesUnder (B ++ '/' :: n) x ++ entriesList (B ++ '/' :: n) (y :: r))
              exact hperm.append hperm2
      -- the file lines
      have hfilesim : ∀ (fs : List FSEntry),
          (∀ x ∈ fs, x.name ≠ [] ∧ '/' ∉ x.name) →
          ∀ (stack2 : List Str) (acc2 : List (Str × Bool)),
            d + 1 ≤ stack2.length → stack2.take (d + 1) = stack.take d ++ [n] →
            ∃ stack3,
              List.foldl parseStep ⟨stack2, acc2⟩ (fileLines
                (if isLast then pfx ++ "    ".data else pfx ++ "│   ".data) fs) =
                ⟨stack3, acc2 ++ fs.map (fun f => (B ++ '/' :: n ++ '/' :: f.name, false))⟩ ∧
              stack3.take (d + 1) = stack.take d ++ [n] ∧ d + 1 ≤ stack3.length := by
        intro fs
        induction fs with
        | nil =>
          intro _ stack2 acc2 hlen2 htake2
          refine ⟨stack2, ?_, htake2, hlen2⟩
          rw [show fileLines _ ([] : List FSEntry) = [] from rfl, List.foldl_nil,
            List.map_nil, List.append_nil]
        | cons x rest ihfs =>
          intro hxs stack2 acc2 hlen2 htake2
          have hx := hxs x (by simp)
          have hstep : ∀ (bf : Bool), parseStep ⟨stack2, acc2⟩ (fileLine
              (if isLast then pfx ++ "    ".data else pfx ++ "│   ".data) bf x.name) =
              ⟨stack2.take (d + 1),
                acc2 ++ [(B ++ '/' :: n ++ '/' :: x.name, false)]⟩ := by
            intro bf
            have hjj : pyJoinStack (stack2.take (d + 1)) = B ++ '/' :: n := by
              rw [htake2, hsnoc]
            exact parseStep_file_line stack2 acc2 _ x.name (B ++ '/' :: n) d bf
              hCPlen hCPch hjj (by rw [htake2]; simp) hbne hbLast hx.1 hx.2
          have htake2' : (stack2.take (d + 1)).take (d + 1) = stack.take d ++ [n] := by
            rw [List.take_take, Nat.min_self, htake2]
          have hlen2' : d + 1 ≤ (stack2.take (d + 1)).length := by
            rw [List.length_take]
            omega
          cases rest with
          | nil =>
            rw [show fileLines (if isLast then pfx ++ "    ".data
              else pfx ++ "│   ".data) [x] = [fileLine _ true x.name] from rfl]
            rw [List.foldl_cons, List.foldl_nil, hstep true]
            exact ⟨stack2.take (d + 1), rfl, htake2', hlen2'⟩
          | cons y r =>
            rw [show fileLines (if isLast then pfx ++ "    ".data
              else pfx ++ "│   ".data) (x :: y :: r) =
              fileLine _ false x.name :: fileLines _ (y :: r) from rfl]
            rw [List.foldl_cons, hstep false]
            obtain ⟨stack3, heq3, htk3, hln3⟩ :=
              ihfs (fun z hz => hxs z (List.mem_cons_of_mem x hz))
                (stack2.take (d + 1)) (acc2 ++ [(B ++ '/' :: n ++ '/' :: x.name, false)])
                hlen2' htake2'
            refine ⟨stack3, ?_, htk3, hln3⟩
            rw [heq3, List.append_assoc]
            rfl
      -- assemble the block
      have hdsOK : ∀ x ∈ dirsOf cs ig,
          sizeOf x ≤ N ∧ goodTreeB ig x = true ∧ x.isDir = true := by
        intro x hx
        refine ⟨?_, goodTree_of_mem_dirsOf hlist hx, by
          simpa using (List.mem_filter.mp hx).2⟩
        have := sizeOf_of_mem_dirsOf (n := n) hx
        omega
      have hfsOK : ∀ x ∈ filesOf cs ig, x.name ≠ [] ∧ '/' ∉ x.name := by
        intro x hx
        have hgx := goodName_of_tree (goodTree_of_mem_filesOf hlist hx)
        exact ⟨hgx.1, hgx.2.2.1⟩
      rw [List.foldl_append]
      obtain ⟨stack3, newE, heqD, hpermD, htkD, hlnD⟩ :=
        hdirsim (dirsOf cs ig) hdsOK (filesOf cs ig).isEmpty (stack.take d ++ [n])
          (acc ++ [(B ++ '/' :: n, true)]) (by omega)
          (List.take_of_length_le (le_of_eq hs1len))
      rw [heqD]
      obtain ⟨stack4, heqF, htkF, hlnF⟩ :=
        hfilesim (filesOf cs ig) hfsOK stack3 ((acc ++ [(B ++ '/' :: n, true)]) ++ newE)
          hlnD htkD
      rw [heqF]
      refine ⟨stack4, (B ++ '/' :: n, true) :: (newE ++
        (filesOf cs ig).map (fun f => (B ++ '/' :: n ++ '/' :: f.name, false))), ?_, ?_, htkF, hlnF⟩
      · rw [List.append_assoc, List.append_assoc]
        rfl
      · show ((B ++ '/' :: n, true) :: (newE ++
          (filesOf cs ig).map (fun f => (B ++ '/' :: n ++ '/' :: f.name, false)))).Perm
          ((B ++ '/' :: n, true) :: entriesList (B ++ '/' :: n) cs)
        apply List.Perm.cons
        have hfmap : (filesOf cs ig).map
            (fun f => (B ++ '/' :: n ++ '/' :: f.name, false)) =
            entriesList (B ++ '/' :: n) (filesOf cs ig) :=
          (entriesList_files (B ++ '/' :: n) (filesOf cs ig) (by
            intro x hx
            simpa using (List.mem_filter.mp hx).2)).symm
        have hkeep : ∀ c ∈ cs, keepName ig c.name = true := fun c hc =>
          goodName_keep (goodName_of_tree (goodTreeListB_elim hlist c hc))
        have h1 : (dirsOf cs ig ++ filesOf cs ig).Perm (childItems cs ig) :=
          List.filter_append_perm _ _
        have h2 : (childItems cs ig).Perm (cs.filter (fun c => keepName ig c.name)) :=
          (List.perm_insertionSort nameLe cs).filter _
        have h3 : cs.filter (fun c => keepName ig c.name) = cs :=
          List.filter_eq_self.mpr hkeep
        have hstep1 : (newE ++ (filesOf cs ig).map
            (fun f => (B ++ '/' :: n ++ '/' :: f.name, false))).Perm
            (entriesList (B ++ '/' :: n) (dirsOf cs ig) ++
              entriesList (B ++ '/' :: n) (filesOf cs ig)) := by
          rw [hfmap]
          exact hpermD.append_right _
        have hstep2 : entriesList (B ++ '/' :: n) (dirsOf cs ig) ++
            entriesList (B ++ '/' :: n) (filesOf cs ig) =
            entriesList (B ++ '/' :: n) (dirsOf cs ig ++ filesOf cs ig) :=
          (entriesList_append _ _ _).symm
        have h4 : (cs.filter (fun c => keepName ig c.name)).Perm cs := by
          rw [h3]
        have hstep3 : (entriesList (B ++ '/' :: n) (dirsOf cs ig ++ filesOf cs ig)).Perm
            (entriesList (B ++ '/' :: n) cs) :=
          entriesList_perm _ (h1.trans (h2.trans h4))
        exact hstep1.trans (hstep2 ▸ hstep3)

/-- Parsing the rendered blocks of a list of sibling subdirectories. -/
theorem scanDirs_sim (ig : List Str) : ∀ (ds : List FSEntry),
    (∀ x ∈ ds, goodTreeB ig x = true ∧ x.isDir = true) →
    ∀ (D : Nat) (cpfx : Str) (nf : Bool), 1 ≤ D → cpfx.length = 4 * (D - 1) →
    (∀ c ∈ cpfx, c = ' ' ∨ c = '│') →
    ∀ (stack2 : List Str) (acc2 : List (Str × Bool)) (B' : Str) (S : List Str),
    D ≤ stack2.length → stack2.take D = S → pyJoinStack S = B' → S ≠ [] →
    B' ≠ [] → B'.getLast? ≠ some '/' →
    ∃ stack3 newE, List.foldl parseStep ⟨stack2, acc2⟩ (scanDirs ds nf D cpfx ig) =
      ⟨stack3, acc2 ++ newE⟩ ∧ newE.Perm (entriesList B' ds) ∧
      stack3.take D = S ∧ D ≤ stack3.length := by
  intro ds
  induction ds with
  | nil =>
    intro _ D cpfx nf _ _ _ stack2 acc2 B' S hlen htake _ _ _ _
    refine ⟨stack2, [], ?_, List.Perm.refl _, htake, hlen⟩
    rw [show scanDirs [] nf D cpfx ig = [] from rfl, List.foldl_nil, List.append_nil]
  | cons x rest ihds =>
    intro hxs D cpfx nf hD hplen hch stack2 acc2 B' S hlen htake hjS hSne hB' hB'l
    have hx := hxs x (by simp)
    have hSlen : S.length = D := by
      rw [← htake, List.length_take]
      omega
    have happly : ∀ (fl : Bool) (acc3 : List (Str × Bool)) (stackc : List Str),
        D ≤ stackc.length → stackc.take D = S →
        ∃ stack4 newE,
          List.foldl parseStep ⟨stackc, acc3⟩ (scanDirectory x D fl cpfx ig) =
            ⟨stack4, acc3 ++ newE⟩ ∧
          newE.Perm (entriesUnder B' x) ∧
          stack4.take D = S ∧ D ≤ stack4.length := by
      intro fl acc3 stackc hclen hctake
      obtain ⟨stack4, newE, heq, hperm, htk, hln⟩ :=
        render_parse_sim ig (sizeOf x) x le_rfl hx.1 hx.2 D fl cpfx stackc acc3 B'
          hD hplen hch hclen (by rw [hctake]; exact hjS) (by rw [hctake]; exact hSne)
          hB' hB'l
      refine ⟨stack4, newE, heq, hperm, ?_, by omega⟩
      have h1 : stack4.take D = (stack4.take (D + 1)).take D := by
        rw [List.take_take]
        congr 1
        omega
      rw [h1, htk, hctake]
      rw [List.take_append_of_le_length (by omega)]
      exact List.take_of_length_le (by omega)
    cases rest with
    | nil =>
      rw [show scanDirs [x] nf D cpfx ig = scanDirectory x D nf cpfx ig from rfl]
      obtain ⟨stack4, newE, heq, hperm, htk, hln⟩ := happly nf acc2 stack2 hlen htake
      refine ⟨stack4, newE, heq, ?_, htk, hln⟩
      show newE.Perm (entriesUnder B' x ++ entriesList B' [])
      rw [show entriesList B' ([] : List FSEntry) = [] from rfl, List.append_nil]
      exact hperm
    | cons y r =>
      rw [show scanDirs (x :: y :: r) nf D cpfx ig =
        scanDirectory x D false cpfx ig ++ scanDirs (y :: r) nf D cpfx ig from rfl]
      rw [List.foldl_append]
      obtain ⟨stack4, newE, heq, hperm, htk, hln⟩ := happly false acc2 stack2 hlen htake
      rw [heq]
      obtain ⟨stack5, newE2, heq2, hperm2, htk2, hln2⟩ :=
        ihds (fun z hz => hxs z (List.mem_cons_of_mem x hz)) D cpfx nf hD hplen hch
          stack4 (acc2 ++ newE) B' S hln htk hjS hSne hB' hB'l
      refine ⟨stack5, newE ++ newE2, ?_, ?_, htk2, hln2⟩
      · rw [heq2, List.append_assoc]
      · show (newE ++ newE2).Perm (entriesUnder B' x ++ entriesList B' (y :: r))
        exact hperm.append hperm2

/-- Parsing the rendered file lines of a listing. -/
theorem fileLines_sim (_ig : List Str) : ∀ (fs : List FSEntry),
    (∀ x ∈ fs, x.name ≠ [] ∧ '/' ∉ x.name) →
    ∀ (D : Nat) (cpfx : Str), cpfx.length = 4 * D →
    (∀ c ∈ cpfx, c = ' ' ∨ c = '│') →
    ∀ (stack2 : List Str) (acc2 : List (Str × Bool)) (B' : Str) (S : List Str),
    D + 1 ≤ stack2.length → stack2.take (D + 1) = S → pyJoinStack S = B' →
    S ≠ [] → B' ≠ [] → B'.getLast? ≠ some '/' →
    ∃ stack3, List.foldl parseStep ⟨stack2, acc2⟩ (fileLines cpfx fs) =
      ⟨stack3, acc2 ++ fs.map (fun f => (B' ++ '/' :: f.name, false))⟩ ∧
      stack3.take (D + 1) = S ∧ D + 1 ≤ stack3.length := by
  intro fs
  induction fs with
  | nil =>
    intro _ D cpfx _ _ stack2 acc2 B' S hlen htake _ _ _ _
    refine ⟨stack2, ?_, htake, hlen⟩
    rw [show fileLines cpfx ([] : List FSEntry) = [] from rfl, List.foldl_nil,
      List.map_nil, List.append_nil]
  | cons x rest ihfs =>
    intro hxs D cpfx hplen hch stack2 acc2 B' S hlen htake hjS hSne hB' hB'l
    have hx := hxs x (by simp)
    have hSlen : S.length = D + 1 := by
      rw [← htake, List.length_take]
      omega
    have hstep : ∀ (bf : Bool) (acc3 : List (Str × Bool)),
        parseStep ⟨stack2, acc3⟩ (fileLine cpfx bf x.name) =
          ⟨stack2.take (D + 1), acc3 ++ [(B' ++ '/' :: x.name, false)]⟩ := by
      intro bf acc3
      exact parseStep_file_line stack2 acc3 cpfx x.name B' D bf hplen hch
        (by rw [htake]; exact hjS) (by rw [htake]; exact hSne) hB' hB'l hx.1 hx.2
    have htake2' : (stack2.take (D + 1)).take (D + 1) = S := by
      rw [List.take_take, Nat.min_self, htake]
    have hlen2' : D + 1 ≤ (stack2.take (D + 1)).length := by
      rw [List.length_take]
      omega
    cases rest with
    | nil =>
      rw [show fileLines cpfx [x] = [fileLine cpfx true x.name] from rfl]
      rw [List.foldl_cons, List.foldl_nil, hstep true acc2]
      exact ⟨stack2.take (D + 1), rfl, htake2', hlen2'⟩
    | cons y r =>
      rw [show fileLines cpfx (x :: y :: r) =
        fileLine cpfx false x.name :: fileLines cpfx (y :: r) from rfl]
      rw [List.foldl_cons, hstep false acc2]
      obtain ⟨stack3, heq3, htk3, hln3⟩ :=
        ihfs (fun z hz => hxs z (List.mem_cons_of_mem x hz)) D cpfx hplen hch
          (stack2.take (D + 1)) (acc2 ++ [(B' ++ '/' :: x.name, false)]) B' S
          hlen2' htake2' hjS hSne hB' hB'l
      refine ⟨stack3, ?_, htk3, hln3⟩
      rw [heq3, List.append_assoc]
      rfl

/-- C1, amended: for a directory tree all of whose entry names are ASCII
(hence glyph-free), non-empty, slash- and newline-free, not hidden, not in
the ignore list, and without stripped leading/trailing whitespace, rendering
with `scan_directory` and parsing the result with `parse_markdown_tree`
yields exactly the `(relative path, is_dir)` entries of the proper
descendants of the root — as a permutation, hence the same set with the
same classification.  (As stated, over all ASCII glyph-free names, the
claim fails: hidden names are dropped by the renderer — see the
counterexample.) -/
theorem claim_C1_amended (rootName : Str) (cs : List FSEntry) (ig : List Str)
    (hgood : goodTreeB ig (.dir rootName cs) = true) :
    (parseMarkdownTree (joinLines
      (scanDirectory (.dir rootName cs) 0 false [] ig))).Perm
      (entriesList rootName cs) := by
  obtain ⟨hname, hlist⟩ := goodTreeB_dir_elim hgood
  obtain ⟨hn1, _, hn3, _, _, _, hn7, _⟩ := hname
  have hlines := scanLines_chars ig (sizeOf (FSEntry.dir rootName cs))
    (FSEntry.dir rootName cs) le_rfl hgood 0 false [] (by intro c hc; cases hc)
  have heq : scanDirectory (FSEntry.dir rootName cs) 0 false [] ig =
      (rootName ++ ['/']) :: (scanDirs (dirsOf cs ig) (filesOf cs ig).isEmpty 1 [] ig ++
        fileLines [] (filesOf cs ig)) := by
    rw [scanDirectory_dir]
    rw [if_pos rfl, if_neg (lt_irrefl 0)]
  have hLne : scanDirectory (FSEntry.dir rootName cs) 0 false [] ig ≠ [] := by
    rw [heq]
    simp
  have hnonl : ∀ l ∈ scanDirectory (FSEntry.dir rootName cs) 0 false [] ig, '\n' ∉ l :=
    fun l hl => (hlines l hl).2.1
  have hstrip : pyStrip (joinLines (scanDirectory (FSEntry.dir rootName cs) 0 false [] ig)) =
      joinLines (scanDirectory (FSEntry.dir rootName cs) 0 false [] ig) := by
    apply pyStrip_eq_self
    · intro c hc
      rw [heq, joinLines_head? _ _ (by simp)] at hc
      cases rootName with
      | nil => exact absurd rfl hn1
      | cons a t =>
        have hca : c = a := by
          rw [show ((a :: t ++ ['/'] : Str)).head? = some a from rfl] at hc
          exact (Option.some.injEq .. ▸ hc).symm
        subst hca
        exact hn7
    · exact joinLines_getLast_prop _ _ (fun l hl => ⟨(hlines l hl).1, (hlines l hl).2.2⟩)
  have hsplit : splitLines (joinLines (scanDirectory (FSEntry.dir rootName cs) 0 false [] ig)) =
      scanDirectory (FSEntry.dir rootName cs) 0 false [] ig :=
    splitLines_joinLines _ hLne hnonl
  unfold parseMarkdownTree
  rw [hstrip, hsplit, heq]
  dsimp only
  rw [rstripSlashes_append_slash rootName hn3]
  rw [List.foldl_append]
  have hrootLast : rootName.getLast? ≠ some '/' := by
    intro h
    exact hn3 (List.mem_of_mem_getLast? h)
  obtain ⟨stack3, newE, heqD, hpermD, htkD, hlnD⟩ :=
    scanDirs_sim ig (dirsOf cs ig) (fun x hx =>
        ⟨goodTree_of_mem_dirsOf hlist hx, by simpa using (List.mem_filter.mp hx).2⟩)
      1 [] (filesOf cs ig).isEmpty le_rfl rfl (by intro c hc; cases hc)
      [rootName] [] rootName [rootName] (by simp) rfl rfl (by simp) hn1 hrootLast
  rw [heqD]
  obtain ⟨stack4, heqF, htkF, hlnF⟩ :=
    fileLines_sim ig (filesOf cs ig) (fun x hx => by
        have hgx := goodName_of_tree (goodTree_of_mem_filesOf hlist hx)
        exact ⟨hgx.1, hgx.2.2.1⟩)
      0 [] rfl (by intro c hc; cases hc) stack3 ([] ++ newE) rootName [rootName]
      hlnD htkD rfl (by simp) hn1 hrootLast
  rw [heqF]
  show (([] ++ newE) ++ (filesOf cs ig).map
    (fun f : FSEntry => (rootName ++ '/' :: f.name, false))).Perm
    (entriesList rootName cs)
  rw [List.nil_append]
  have hfmap : (filesOf cs ig).map (fun f => (rootName ++ '/' :: f.name, false)) =
      entriesList rootName (filesOf cs ig) :=
    (entriesList_files rootName (filesOf cs ig) (by
      intro x hx
      simpa using (List.mem_filter.mp hx).2)).symm
  have hkeep : ∀ c ∈ cs, keepName ig c.name = true := fun c hc =>
    goodName_keep (goodName_of_tree (goodTreeListB_elim hlist c hc))
  have h1 : (dirsOf cs ig ++ filesOf cs ig).Perm (childItems cs ig) :=
    List.filter_append_perm _ _
  have h2 : (childItems cs ig).Perm (cs.filter (fun c => keepName ig c.name)) :=
    (List.perm_insertionSort nameLe cs).filter _
  have h3 : cs.filter (fun c => keepName ig c.name) = cs :=
    List.filter_eq_self.mpr hkeep
  have h4 : (cs.filter (fun c => keepName ig c.name)).Perm cs := by
    rw [h3]
  have hstep1 : (newE ++ (filesOf cs ig).map
      (fun f => (rootName ++ '/' :: f.name, false))).Perm
      (entriesList rootName (dirsOf cs ig) ++ entriesList rootName (filesOf cs ig)) := by
    rw [hfmap]
    exact hpermD.append_right _
  have hstep2 : entriesList rootName (dirsOf cs ig) ++
      entriesList rootName (filesOf cs ig) =
      entriesList rootName (dirsOf cs ig ++ filesOf cs ig) :=
    (entriesList_append _ _ _).symm
  have hstep3 : (entriesList rootName (dirsOf cs ig ++ filesOf cs ig)).Perm
      (entriesList rootName cs) :=
    entriesList_perm _ (h1.trans (h2.trans h4))
  exact hstep1.trans (hstep2 ▸ hstep3)

/-- Witness for the amended C1 at the example tree. -/
theorem claim_C1_amended_witness :
    (parseMarkdownTree (joinLines (scanDirectory
      (.dir "proj".data [.dir "src".data [.file "main.py".data],
        .file "README.md".data]) 0 false [] defaultIgnore))).Perm
      (entriesList "proj".data [.dir "src".data [.file "main.py".data],
        .file "README.md".data]) :=
  claim_C1_amended "proj".data
    [.dir "src".data [.file "main.py".data], .file "README.md".data]
    defaultIgnore (by decide)

/-- Counterexample to C1 as stated: the tree `proj` containing only the
ASCII, glyph-free name `.hidden` renders to a diagram that parses back to
no entries at all — the hidden file is lost by the round trip. -/
theorem claim_C1_counterexample :
    treeAsciiB (.dir "proj".data [.file ".hidden".data]) = true ∧
    parseMarkdownTree (joinLines (scanDirectory
      (.dir "proj".data [.file ".hidden".data]) 0 false [] defaultIgnore)) = [] ∧
    ("proj/.hidden".data, false) ∈ entriesList "proj".data [.file ".hidden".data] := by
  refine ⟨by decide, by decide, ?_⟩
  show ("proj/.hidden".data, false) ∈ [("proj/.hidden".data, false)]
  decide

/-! ## The filesystem model and the two materializers

The filesystem is an association list from paths to nodes; a path is
compared after stripping trailing slashes (the only normalization POSIX
applies to the operations used here); `.`/`..` resolution and symlinks are
not modelled.  Fallible operations return `Except FS FS`, the error case
carrying the state at the point of failure (a raised exception). -/

inductive FSNode where
  | dirNode
  | fileNode (content : Str)
deriving DecidableEq

abbrev FS := List (Str × FSNode)

/-- Path key normalization: trailing slashes are immaterial (except for a
string of only slashes). -/
def normPath (p : Str) : Str := if rstripSlashes p = [] then p else rstripSlashes p

def fsGet (fs : FS) (p : Str) : Option FSNode := fs.lookup (normPath p)

def fsSet (fs : FS) (p : Str) (nd : FSNode) : FS := (normPath p, nd) :: fs

/-- `os.path.exists`. -/
def fsExists (fs : FS) (p : Str) : Bool := (fsGet fs p).isSome

/-- `os.path.isdir`. -/
def fsIsDir (fs : FS) (p : Str) : Bool := fsGet fs p == some .dirNode

/-- Sequencing of fallible filesystem steps: an error short-circuits. -/
def andThen (e : Except FS FS) (f : FS → Except FS FS) : Except FS FS :=
  match e with
  | .error fs' => .error fs'
  | .ok fs' => f fs'

/-- `try/except` recovery: on error, succeed with `fs` when `cond` holds,
re-raise (with `fs`) otherwise. -/
def recoverIf (e : Except FS FS) (fs : FS) (cond : Bool) : Except FS FS :=
  match e with
  | .ok fs' => .ok fs'
  | .error _ => if cond then .ok fs else .error fs

/-- `posixpath.split`: head is everything up to the final slash (stripped of
trailing slashes unless it is all slashes), tail is everything after it. -/
def pySplit (p : Str) : Str × Str :=
  let tail := (p.reverse.takeWhile (fun c => !(c = '/'))).reverse
  if tail.length = p.length then ([], p)
  else
    let head0 := p.take (p.length - tail.length)
    (if head0.all (fun c => c = '/') then head0 else rstripSlashes head0, tail)

/-- `os.path.dirname`. -/
def pyDirname (p : Str) : Str := (pySplit p).1

/-- `os.mkdir`: fails if the path exists or its parent is not a directory. -/
def osMkdir (fs : FS) (p : Str) : Except FS FS :=
  if fsExists fs p then .error fs
  else if pyDirname (normPath p) = [] ∨ fsIsDir fs (pyDirname (normPath p)) then
    .ok (fsSet fs p .dirNode)
  else .error fs

/-- The final `mkdir` attempt of `os.makedirs`: an `OSError` is suppressed
exactly when `exist_ok` is set and the path is a directory. -/
def mkdirStep (fs : FS) (name : Str) (exist_ok : Bool) : Except FS FS :=
  recoverIf (osMkdir fs name) fs (exist_ok && fsIsDir fs name)

/-- The `head, tail` pair of `os.makedirs` after the re-split applied when
the tail is empty. -/
def makedirsHT (name : Str) : Str × Str :=
  if (pySplit name).2 = [] then pySplit (pySplit name).1 else pySplit name

/-- `os.makedirs`: split off the final component, recursively create the
head when it is missing, then `mkdir` the full path.  The recursion is on a
structural bound (`name.length` of the original call), which the recursive
calls never exhaust since the head is strictly shorter. -/
def osMakedirsAux : Nat → FS → Str → Bool → Except FS FS
  | 0, fs, name, exist_ok => mkdirStep fs name exist_ok
  | fuel + 1, fs, name, exist_ok =>
    if (makedirsHT name).1 ≠ [] ∧ (makedirsHT name).2 ≠ [] ∧
        ¬fsExists fs (makedirsHT name).1 then
      andThen (osMakedirsAux fuel fs (makedirsHT name).1 exist_ok) fun fs' =>
        if (makedirsHT name).2 = ".".data then .ok fs'
        else mkdirStep fs' name exist_ok
    else mkdirStep fs name exist_ok

def osMakedirs (fs : FS) (name : Str) (exist_ok : Bool) : Except FS FS :=
  osMakedirsAux name.length fs name exist_ok

/-- `open(p, 'w')` followed by writing `content`: truncates or creates;
fails on a directory or a missing parent directory. -/
def fsWrite (fs : FS) (p : Str) (content : Str) : Except FS FS :=
  if fsGet fs p = some .dirNode then .error fs
  else if pyDirname (normPath p) = [] ∨ fsIsDir fs (pyDirname (normPath p)) then
    .ok (fsSet fs p (.fileNode content))
  else .error fs

/-! ### `folder_md_converter.create_structure` -/

/-- The creation loop of `folder_md_converter.create_structure`
(lines 184–198): directories via `makedirs(exist_ok=True)`, files via
`makedirs` on the parent and an unconditional `open(w)` of empty content. -/
def mdLoop : List (Str × Bool) → Str → FS → Except FS FS
  | [], _, fs => .ok fs
  | (p, isDir) :: rest, baseDir, fs =>
    if isDir then
      andThen (osMakedirs fs (pyJoin1 baseDir p) true) fun fs' =>
        mdLoop rest baseDir fs'
    else
      andThen (osMakedirs fs (pyDirname (pyJoin1 baseDir p)) true) fun fs' =>
        andThen (fsWrite fs' (pyJoin1 baseDir p) []) fun fs'' =>
          mdLoop rest baseDir fs''

/-- Python `str.lower()` (ASCII). -/
def pyLower (s : Str) : Str :=
  s.map (fun c => if 'A' ≤ c ∧ c ≤ 'Z' then Char.ofNat (c.toNat + 32) else c)

/-- `create_structure` of `folder_md_converter.py`: print plan, honor
`dry_run`, ask for confirmation, then run the creation loop; returns the
Boolean result of the function, or an error carrying the state. -/
def mdFinish : Except FS FS → Except FS (Bool × FS)
  | .error fs' => .error fs'
  | .ok fs' => .ok (true, fs')

def createStructureMd (paths : List (Str × Bool)) (baseDir : Str) (dryRun : Bool)
    (confirm : Str) (fs : FS) : Except FS (Bool × FS) :=
  if paths = [] then .ok (false, fs)
  else if dryRun then .ok (true, fs)
  else if pyLower confirm ≠ ['y'] then .ok (false, fs)
  else mdFinish (mdLoop paths baseDir fs)

/-! ### `folder_creator.create_structure` -/

/-- Python `str.title()` (ASCII): first letter of each alphabetic run
uppercased, the rest lowered. -/
def pyTitleGo : Bool → Str → Str
  | _, [] => []
  | prevAlpha, c :: rest =>
    (if c.isAlpha then (if prevAlpha then c.toLower else c.toUpper) else c) ::
      pyTitleGo c.isAlpha rest

def pyTitle (s : Str) : Str := pyTitleGo false s

/-- `os.path.basename(p).split('.')[0].replace('_', ' ').title()`. -/
def moduleNameOf (p : Str) : Str :=
  pyTitle (((pySplit p).2.takeWhile (fun c => !(c = '.'))).map
    (fun c => if c = '_' then ' ' else c))

/-- The `python_template` with `module_name` substituted. -/
def pythonTemplate (moduleName : Str) : Str :=
  "\"\"\"\n".data ++ moduleName ++ "\n\"\"\"\n\n".data

/-- `full_path.endswith('.py')`. -/
def endsWithPy (p : Str) : Bool := p.reverse.take 3 == "yp.".data

/-- The second half of the loop body of `folder_creator.create_structure`:
the trailing-separator directory case and the file case, after the
`dir_path` creation step has produced `fs'`. -/
def fcItemTail (outDir : Str) (withSample : Bool) (fs' : FS) (item : Str) : Except FS FS :=
  if item.getLast? = some '/' ∨ item.getLast? = some '\\' then
    if ¬fsExists fs' (pyJoin1 outDir item) then osMakedirs fs' (pyJoin1 outDir item) true
    else .ok fs'
  else
    if ¬fsExists fs' (pyJoin1 outDir item) then
      if withSample ∧ endsWithPy (pyJoin1 outDir item) then
        fsWrite fs' (pyJoin1 outDir item) (pythonTemplate (moduleNameOf (pyJoin1 outDir item)))
      else fsWrite fs' (pyJoin1 outDir item) []
    else .ok fs'

/-- The body of the `for item in files_and_folders` loop of
`folder_creator.create_structure`: create `dir_path` when missing, then
create the item itself. -/
def fcItem (outDir : Str) (withSample : Bool) (fs : FS) (item : Str) : Except FS FS :=
  andThen
    (if pyDirname (pyJoin1 outDir item) ≠ [] ∧
        ¬fsExists fs (pyDirname (pyJoin1 outDir item)) then
       osMakedirs fs (pyDirname (pyJoin1 outDir item)) true
     else .ok fs)
    fun fs' => fcItemTail outDir withSample fs' item

def fcLoop : List Str → Str → Bool → FS → Except FS FS
  | [], _, _, fs => .ok fs
  | item :: rest, outDir, withSample, fs =>
    andThen (fcItem outDir withSample fs item) fun fs' =>
      fcLoop rest outDir withSample fs'

/-- `create_structure` of `folder_creater/folder_creator.py`. -/
def createStructureFC (outDir : Str) (items : List Str) (withSample : Bool)
    (fs : FS) : Except FS FS :=
  andThen (osMakedirs fs outDir true) fun fs' =>
    fcLoop items outDir withSample fs'

/-- The state carried by either outcome. -/
def exceptState : Except FS FS → FS
  | .ok fs => fs
  | .error fs => fs

/-- The state carried by either outcome of `create_structure` (md variant). -/
def mdStateOf : Except FS (Bool × FS) → FS
  | .ok (_, fs) => fs
  | .error fs => fs

instance {α β : Type} [DecidableEq α] [DecidableEq β] : DecidableEq (Except α β) :=
  fun a b =>
    match a, b with
    | .ok x, .ok y =>
      if h : x = y then .isTrue (by rw [h]) else .isFalse (by simp [h])
    | .error x, .error y =>
      if h : x = y then .isTrue (by rw [h]) else .isFalse (by simp [h])
    | .ok _, .error _ => .isFalse (by simp)
    | .error _, .ok _ => .isFalse (by simp)

/-! ## `folder_creator.py`: extraction, parsing and `main`

`\w` and `\s` are modelled at ASCII (plus the glyph classes written
literally in the source patterns). -/

/-- The character class of `\w`. -/
def isWordChar (c : Char) : Bool := c.isAlphanum || c = '_'

/-- The box-drawing glyph class spelled out in the source patterns. -/
def boxGlyphs : Str := "│├└─┬┼┤┴┌┐┘┗━┃┣┗┻╋┫┻╭╮╯╰".data

def isBoxGlyph (c : Char) : Bool := boxGlyphs.contains c

/-- Does `s` start with `pat`? -/
def startsWith : Str → Str → Bool
  | _, [] => true
  | [], _ :: _ => false
  | c :: s, p :: ps => c == p && startsWith s ps

/-- Split `s` at the first occurrence of `pat`: the part before it and the
part after it. -/
def splitFirst (pat : Str) : Str → Option (Str × Str)
  | [] => if startsWith [] pat then some ([], []) else none
  | c :: rest =>
    if startsWith (c :: rest) pat then some ([], (c :: rest).drop pat.length)
    else
      match splitFirst pat rest with
      | some (pre, post) => some (c :: pre, post)
      | none => none

/-- Match `` ```(?:\w*)\n(.*?)\n``` `` (DOTALL) at the start of `s`,
returning the captured body and the rest of the input after the match. -/
def matchFenceAt (s : Str) : Option (Str × Str) :=
  if startsWith s ("```".data) then
    let after := (s.drop 3).drop ((s.drop 3).takeWhile isWordChar).length
    match after with
    | '\n' :: body' => splitFirst ("\n```".data) body'
    | _ => none
  else none

/-- `re.findall` of the fence pattern: leftmost, non-overlapping matches.
The structural fuel starts at the input length, which the scan never
exhausts since every step consumes at least one character. -/
def findCodeBlocksAux : Nat → Str → List Str
  | 0, _ => []
  | fuel + 1, s =>
    match s with
    | [] => []
    | _ :: rest =>
      match matchFenceAt s with
      | some (body, after) => body :: findCodeBlocksAux fuel after
      | none => findCodeBlocksAux fuel rest

def findCodeBlocks (s : Str) : List Str := findCodeBlocksAux s.length s

/-- `re.match(r'^[\s│├└─┬┼┤┴┌┐┘┗━┃┣┗┻╋┫┻╭╮╯╰]+\w+.*$', line)`: at least one
space/glyph character, then a word character. -/
def stepTwoRe (l : Str) : Bool :=
  let cls := fun c => isPySpace c || isBoxGlyph c
  let run := l.takeWhile cls
  !run.isEmpty &&
    (match l.drop run.length with
     | c :: _ => isWordChar c
     | [] => false)

def structLine1 (l : Str) : Bool := stepTwoRe l || l.contains '/'

/-- `re.search(r'[│├└─┬┼┤┴┌┐┘┗━┃┣┗┻╋┫┻╭╮╯╰]|\w+\/\w+|[\w-]+\.\w+', line)`:
a glyph somewhere, or a word char / word char triple, or a word-or-dash
char '.' word char triple. -/
def hasMidTriple (p1 : Char → Bool) (mid : Char) (p2 : Char → Bool) : Str → Bool
  | a :: b :: c :: rest => (p1 a && b == mid && p2 c) || hasMidTriple p1 mid p2 (b :: c :: rest)
  | _ => false

def fallbackHit (l : Str) : Bool :=
  l.any isBoxGlyph || hasMidTriple isWordChar '/' isWordChar l ||
    hasMidTriple (fun c => isWordChar c || c = '-') '.' isWordChar l

/-- The first code block containing a slash or backslash, if any. -/
def firstBlockWithSlash : List Str → Option Str
  | [] => none
  | b :: bs => if b.contains '/' || b.contains '\\' then some b else firstBlockWithSlash bs

/-- `extract_structure_from_markdown` (reading the file replaced by its
content). -/
def extractStructure (content : Str) : Str :=
  let codeBlocks := findCodeBlocks content
  let lines := splitLines content
  let phase1 : Option Str :=
    if codeBlocks.isEmpty then
      let structureLines := lines.filter structLine1
      if !structureLines.isEmpty then some (joinLines structureLines) else none
    else none
  match phase1 with
  | some r => r
  | none =>
    match firstBlockWithSlash codeBlocks with
    | some b => b
    | none => joinLines (lines.filter fallbackHit)

/-- `re.sub(r'^[│├└─┬┼┤┴┌┐┘┗━┃┣┗┻╋┫┻╭╮╯╰\s]+', '', line)`. -/
def cleanLine (l : Str) : Str := l.dropWhile (fun c => isBoxGlyph c || isPySpace c)

/-- `re.sub(r'\s+#.*$', '', line)`: cut the line at the leftmost position
where a whitespace run is followed by `#`. -/
def stripTrailingComment : Str → Str
  | [] => []
  | c :: rest =>
    if isPySpace c && ((c :: rest).dropWhile isPySpace).head? == some '#' then []
    else c :: stripTrailingComment rest

/-- `parse_structure`. -/
def parseStructure (structureText : Str) : List Str :=
  (splitLines structureText).filterMap fun line =>
    let cleaned := cleanLine line
    if cleaned.isEmpty || cleaned.head? == some '#' then none
    else if cleaned.contains '/' || cleaned.contains '.' then
      some (stripTrailingComment (cleaned.map (fun c => if c = '\\' then '/' else c)))
    else none

/-- Success is exit code 0; the `except` handler turns an exception into
exit code 1. -/
def fcFinish : Except FS FS → Nat × FS
  | .ok fs' => (0, fs')
  | .error fs' => (1, fs')

/-- `main` of `folder_creator.py`: (exit code, final filesystem); an
exception from creation yields code 1 with the state at failure. -/
def fcMain (content : Str) (outDir : Str) (withSample : Bool) (fs : FS) : Nat × FS :=
  if (extractStructure content).isEmpty then (1, fs)
  else if (parseStructure (extractStructure content)).isEmpty then (1, fs)
  else fcFinish (createStructureFC outDir (parseStructure (extractStructure content)) withSample fs)

/-- `fs'` keeps every binding `fs` has (for the keys `fsGet` resolves). -/
def Preserves (fs fs' : FS) : Prop :=
  ∀ q nd, fsGet fs q = some nd → fsGet fs' q = some nd

theorem preserves_refl (fs : FS) : Preserves fs fs := fun _ _ h => h

theorem preserves_trans {a b c : FS} (h1 : Preserves a b) (h2 : Preserves b c) :
    Preserves a c := fun q nd h => h2 q nd (h1 q nd h)

theorem fsGet_fsSet_ne (fs : FS) (p q : Str) (nd : FSNode)
    (h : ¬normPath q = normPath p) :
    fsGet (fsSet fs p nd) q = fsGet fs q := by
  have hb : (normPath q == normPath p) = false := beq_eq_false_iff_ne.mpr h
  simp [fsGet, fsSet, List.lookup, hb]

theorem fsGet_fsSet_self (fs : FS) (p : Str) (nd : FSNode) :
    fsGet (fsSet fs p nd) p = some nd := by
  simp [fsGet, fsSet, List.lookup]

theorem fsSet_preserves_absent (fs : FS) (p : Str) (nd : FSNode)
    (h : fsExists fs p = false) : Preserves fs (fsSet fs p nd) := by
  intro q nd' hq
  rw [fsGet_fsSet_ne]
  · exact hq
  · intro he
    rw [fsExists] at h
    rw [fsGet] at hq
    rw [he] at hq
    rw [fsGet] at h
    rw [hq] at h
    simp at h

theorem osMkdir_preserves (fs : FS) (p : Str) :
    Preserves fs (exceptState (osMkdir fs p)) := by
  unfold osMkdir
  by_cases h : fsExists fs p = true
  · simp only [h, if_true]
    exact preserves_refl fs
  · simp only [h, if_false, Bool.false_eq_true]
    split
    · exact fsSet_preserves_absent fs p _ (by simpa using h)
    · exact preserves_refl fs

theorem preserves_andThen {fs₀ : FS} {e : Except FS FS} {f : FS → Except FS FS}
    (h1 : Preserves fs₀ (exceptState e))
    (h2 : ∀ fs', Preserves fs' (exceptState (f fs'))) :
    Preserves fs₀ (exceptState (andThen e f)) := by
  cases e with
  | error fs' => exact h1
  | ok fs' => exact preserves_trans h1 (h2 fs')

theorem preserves_recoverIf {fs₀ : FS} {e : Except FS FS} (fs : FS) (cond : Bool)
    (h1 : Preserves fs₀ (exceptState e)) (h0 : Preserves fs₀ fs) :
    Preserves fs₀ (exceptState (recoverIf e fs cond)) := by
  cases e with
  | ok fs' => exact h1
  | error fs' =>
    cases cond with
    | true => exact h0
    | false => exact h0

theorem fsGet_andThen {e : Except FS FS} {f : FS → Except FS FS}
    {q : Str} {nd : FSNode}
    (h1 : fsGet (exceptState e) q = some nd)
    (h2 : ∀ fs', e = .ok fs' → fsGet fs' q = some nd →
      fsGet (exceptState (f fs')) q = some nd) :
    fsGet (exceptState (andThen e f)) q = some nd := by
  cases e with
  | error fs' => exact h1
  | ok fs' => exact h2 fs' rfl h1

theorem mkdirStep_preserves (fs : FS) (name : Str) (ok : Bool) :
    Preserves fs (exceptState (mkdirStep fs name ok)) :=
  preserves_recoverIf fs (ok && fsIsDir fs name) (osMkdir_preserves fs name)
    (preserves_refl fs)

theorem osMakedirsAux_preserves (fuel : Nat) :
    ∀ (fs : FS) (name : Str) (ok : Bool),
      Preserves fs (exceptState (osMakedirsAux fuel fs name ok)) := by
  induction fuel with
  | zero => intro fs name ok; exact mkdirStep_preserves fs name ok
  | succ fuel ih =>
    intro fs name ok
    unfold osMakedirsAux
    split
    · refine preserves_andThen (ih fs (makedirsHT name).1 ok) (fun fs' => ?a)
      split
      · exact preserves_refl fs'
      · exact mkdirStep_preserves fs' name ok
    · exact mkdirStep_preserves fs name ok

theorem osMakedirs_preserves (fs : FS) (name : Str) (ok : Bool) :
    Preserves fs (exceptState (osMakedirs fs name ok)) :=
  osMakedirsAux_preserves name.length fs name ok

theorem fsWrite_preserves_absent (fs : FS) (p content : Str)
    (h : fsExists fs p = false) :
    Preserves fs (exceptState (fsWrite fs p content)) := by
  unfold fsWrite
  split
  · exact preserves_refl fs
  · split
    · exact fsSet_preserves_absent fs p _ h
    · exact preserves_refl fs

theorem fsWrite_preserves_ne (fs : FS) (p content q : Str) (nd : FSNode)
    (hne : ¬normPath q = normPath p) (hq : fsGet fs q = some nd) :
    fsGet (exceptState (fsWrite fs p content)) q = some nd := by
  unfold fsWrite
  split
  · exact hq
  · split
    · rw [exceptState, fsGet_fsSet_ne fs p q _ hne]
      exact hq
    · exact hq

theorem fcItemTail_preserves (outDir : Str) (ws : Bool) (fs : FS) (item : Str) :
    Preserves fs (exceptState (fcItemTail outDir ws fs item)) := by
  unfold fcItemTail
  split
  · split
    · exact osMakedirs_preserves fs _ true
    · exact preserves_refl fs
  · split
    · split
      · exact fsWrite_preserves_absent fs _ _ (by simp_all)
      · exact fsWrite_preserves_absent fs _ _ (by simp_all)
    · exact preserves_refl fs

theorem fcItem_preserves (outDir : Str) (ws : Bool) (fs : FS) (item : Str) :
    Preserves fs (exceptState (fcItem outDir ws fs item)) := by
  unfold fcItem
  refine preserves_andThen ?a (fun fs' => fcItemTail_preserves outDir ws fs' item)
  split
  · exact osMakedirs_preserves fs _ true
  · exact preserves_refl fs

theorem fcLoop_preserves (items : List Str) :
    ∀ (outDir : Str) (ws : Bool) (fs : FS),
      Preserves fs (exceptState (fcLoop items outDir ws fs)) := by
  induction items with
  | nil => intro outDir ws fs; exact preserves_refl fs
  | cons item rest ih =>
    intro outDir ws fs
    exact preserves_andThen (fcItem_preserves outDir ws fs item)
      (fun fs' => ih outDir ws fs')

theorem createStructureFC_preserves (outDir : Str) (items : List Str) (ws : Bool)
    (fs : FS) : Preserves fs (exceptState (createStructureFC outDir items ws fs)) :=
  preserves_andThen (osMakedirs_preserves fs outDir true)
    (fun fs' => fcLoop_preserves items outDir ws fs')

theorem mdLoop_preserves_file (paths : List (Str × Bool)) :
    ∀ (baseDir : Str) (fs : FS) (q c : Str),
      (∀ pb ∈ paths, pb.2 = false → ¬normPath (pyJoin1 baseDir pb.1) = normPath q) →
      fsGet fs q = some (.fileNode c) →
      fsGet (exceptState (mdLoop paths baseDir fs)) q = some (.fileNode c) := by
  induction paths with
  | nil => intro baseDir fs q c _ hq; exact hq
  | cons pb rest ih =>
    intro baseDir fs q c hne hq
    obtain ⟨p, isDir⟩ := pb
    have hrest : ∀ pb ∈ rest, pb.2 = false →
        ¬normPath (pyJoin1 baseDir pb.1) = normPath q :=
      fun x hx => hne x (List.mem_cons_of_mem _ hx)
    unfold mdLoop
    cases isDir with
    | true =>
      simp only [if_true]
      refine fsGet_andThen (osMakedirs_preserves fs (pyJoin1 baseDir p) true q _ hq)
        (fun fs2 _ hq2 => ?a)
      exact ih baseDir fs2 q c hrest hq2
    | false =>
      simp only [Bool.false_eq_true, if_false]
      have hnep : ¬normPath q = normPath (pyJoin1 baseDir p) := by
        intro he
        exact hne (p, false) (List.mem_cons_self _ _) rfl he.symm
      refine fsGet_andThen
        (osMakedirs_preserves fs (pyDirname (pyJoin1 baseDir p)) true q _ hq)
        (fun fs2 _ hq2 => ?b)
      refine fsGet_andThen (fsWrite_preserves_ne fs2 (pyJoin1 baseDir p) [] q _ hnep hq2)
        (fun fs3 _ hq3 => ?c)
      exact ih baseDir fs3 q c hrest hq3

theorem fsIsDir_get {fs : FS} {p : Str} (h : fsIsDir fs p = true) :
    fsGet fs p = some .dirNode := by
  rw [fsIsDir] at h
  exact beq_iff_eq.mp h

theorem fsIsDir_exists {fs : FS} {p : Str} (h : fsIsDir fs p = true) :
    fsExists fs p = true := by
  rw [fsExists, fsIsDir_get h]
  rfl

/-- `os.makedirs(p, exist_ok=True)` on a directory that already exists: the
final `mkdir` raises, the `exist_ok` check suppresses the error. -/
theorem mkdirStep_existing_dir (fs : FS) (p : Str) (h : fsIsDir fs p = true) :
    mkdirStep fs p true = .ok fs := by
  rw [mkdirStep, osMkdir, if_pos (fsIsDir_exists h)]
  rw [recoverIf]
  simp [h]

/-- `os.makedirs(p, exist_ok=True)` on an existing directory whose parent
component either is empty or exists: a clean no-op success. -/
theorem osMakedirs_existing_dir (fs : FS) (p : Str) (h : fsIsDir fs p = true)
    (hpar : (makedirsHT p).1 = [] ∨ fsExists fs (makedirsHT p).1 = true) :
    osMakedirs fs p true = .ok fs := by
  have hguard : ¬((makedirsHT p).1 ≠ [] ∧ (makedirsHT p).2 ≠ [] ∧
      ¬fsExists fs (makedirsHT p).1 = true) := by
    rcases hpar with h1 | h2
    · exact fun hc => hc.1 h1
    · exact fun hc => hc.2.2 h2
  rw [osMakedirs]
  cases hl : p.length with
  | zero =>
    rw [osMakedirsAux]
    exact mkdirStep_existing_dir fs p h
  | succ n =>
    rw [osMakedirsAux, if_neg hguard]
    exact mkdirStep_existing_dir fs p h

theorem pyJoin1_getLast? (path b : Str) (hb : b ≠ []) :
    (pyJoin1 path b).getLast? = b.getLast? := by
  obtain ⟨x, hx⟩ := Option.isSome_iff_exists.mp (List.getLast?_isSome.mpr hb)
  rw [pyJoin1]
  split
  · rfl
  · split
    · rw [List.getLast?_append, hx]
      rfl
    · rw [List.getLast?_append]
      have hcons : ('/' :: b).getLast? = some x := by
        cases b with
        | nil => exact absurd rfl hb
        | cons y ys => rw [List.getLast?_cons_cons]; exact hx
      rw [hcons, hx]
      rfl

/-- The file branch of the `folder_creator` loop body: a missing file whose
parent directory exists is created with the template (for `.py` files with
the flag) or empty content. -/
theorem fcItemTail_creates_file (outDir : Str) (ws : Bool) (fs : FS) (item : Str)
    (hne : item ≠ []) (h1 : item.getLast? ≠ some '/') (h2 : item.getLast? ≠ some '\\')
    (hdir : fsIsDir fs (pyDirname (pyJoin1 outDir item)) = true)
    (habs : fsExists fs (pyJoin1 outDir item) = false) :
    fcItemTail outDir ws fs item = .ok (fsSet fs (pyJoin1 outDir item)
      (.fileNode (if ws ∧ endsWithPy (pyJoin1 outDir item) then
          pythonTemplate (moduleNameOf (pyJoin1 outDir item)) else []))) := by
  have hnorm : normPath (pyJoin1 outDir item) = pyJoin1 outDir item := by
    have hlast : (pyJoin1 outDir item).getLast? ≠ some '/' := by
      rw [pyJoin1_getLast? outDir item hne]
      exact h1
    rw [normPath, rstripSlashes_eq_self _ hlast]
    split
    · rename_i hempty
      rw [hempty]
    · rfl
  have hget : fsGet fs (pyJoin1 outDir item) = none := by
    rw [fsExists] at habs
    exact Option.not_isSome_iff_eq_none.mp (by rw [habs]; simp)
  rw [fcItemTail, if_neg (by rintro (ha | hb); exact h1 ha; exact h2 hb)]
  rw [if_pos (by rw [habs]; simp)]
  have hwrite : ∀ content,
      fsWrite fs (pyJoin1 outDir item) content =
        .ok (fsSet fs (pyJoin1 outDir item) (.fileNode content)) := by
    intro content
    rw [fsWrite, if_neg (by rw [hget]; simp), if_pos]
    rw [hnorm]
    exact Or.inr hdir
  split
  · rw [hwrite]
  · rw [hwrite]

/-- C2, counterexample to the claim as stated: `folder_md_converter.create_structure`
opens every file entry with mode `w` unguarded, so materializing
`[("a.txt", file)]` over a state where `./a.txt` already holds content `"x"`
truncates it to empty content — an existing file's content is changed. -/
theorem claim_C2_counterexample :
    fsGet [(".".data, FSNode.dirNode), ("./a.txt".data, FSNode.fileNode ['x'])]
        "./a.txt".data = some (.fileNode ['x']) ∧
    fsGet (mdStateOf (createStructureMd [("a.txt".data, false)] ".".data false "y".data
        [(".".data, FSNode.dirNode), ("./a.txt".data, FSNode.fileNode ['x'])]))
        "./a.txt".data = some (.fileNode []) ∧
    (['x'] : Str) ≠ [] := by
  refine ⟨by decide, by decide, by decide⟩

/-- C2 (amended): (1) `folder_creator.create_structure` never changes or
drops any existing binding — in particular the content of every existing
file is preserved, in success and in failure alike, so materializing twice
changes no existing file; (2) the `exist_ok` recovery of the final `mkdir`
step accepts an already-existing directory; (3) `os.makedirs(_, exist_ok=True)`
on an existing directory whose head component is empty or present is a no-op
success; (4) the `folder_creator` loop body creates a missing file (whose
parent directory exists) with empty content, or with the Python template
when the flag is set and the name ends in `.py`; (5) the
`folder_md_converter` creation loop preserves the content of every existing
file it does not explicitly name as a file entry. -/
theorem claim_C2_amended :
    (∀ (outDir : Str) (items : List Str) (ws : Bool) (fs : FS) (q c : Str),
      fsGet fs q = some (.fileNode c) →
      fsGet (exceptState (createStructureFC outDir items ws fs)) q = some (.fileNode c)) ∧
    (∀ (fs : FS) (p : Str), fsIsDir fs p = true → mkdirStep fs p true = .ok fs) ∧
    (∀ (fs : FS) (p : Str), fsIsDir fs p = true →
      ((makedirsHT p).1 = [] ∨ fsExists fs (makedirsHT p).1 = true) →
      osMakedirs fs p true = .ok fs) ∧
    (∀ (outDir : Str) (ws : Bool) (fs : FS) (item : Str),
      item ≠ [] → item.getLast? ≠ some '/' → item.getLast? ≠ some '\\' →
      fsIsDir fs (pyDirname (pyJoin1 outDir item)) = true →
      fsExists fs (pyJoin1 outDir item) = false →
      fcItemTail outDir ws fs item = .ok (fsSet fs (pyJoin1 outDir item)
        (.fileNode (if ws ∧ endsWithPy (pyJoin1 outDir item) then
            pythonTemplate (moduleNameOf (pyJoin1 outDir item)) else [])))) ∧
    (∀ (paths : List (Str × Bool)) (baseDir : Str) (fs : FS) (q c : Str),
      (∀ pb ∈ paths, pb.2 = false → ¬normPath (pyJoin1 baseDir pb.1) = normPath q) →
      fsGet fs q = some (.fileNode c) →
      fsGet (exceptState (mdLoop paths baseDir fs)) q = some (.fileNode c)) := by
  refine ⟨?p1, mkdirStep_existing_dir, osMakedirs_existing_dir, fcItemTail_creates_file, ?p5⟩
  · intro outDir items ws fs q c hq
    exact createStructureFC_preserves outDir items ws fs q _ hq
  · intro paths baseDir fs q c hne hq
    exact mdLoop_preserves_file paths baseDir fs q c hne hq

theorem claim_C2_amended_witness :
    (fsGet [("out".data, FSNode.dirNode), ("out/a.txt".data, FSNode.fileNode ['x'])]
        "out/a.txt".data = some (.fileNode ['x']) ∧
      fsGet (exceptState (createStructureFC "out".data ["a.txt".data] false
          [("out".data, FSNode.dirNode), ("out/a.txt".data, FSNode.fileNode ['x'])]))
        "out/a.txt".data = some (.fileNode ['x'])) ∧
    (fsIsDir [("d".data, FSNode.dirNode)] "d".data = true ∧
      osMakedirs [("d".data, FSNode.dirNode)] "d".data true =
        .ok [("d".data, FSNode.dirNode)]) ∧
    fcItemTail "out".data true [("out".data, FSNode.dirNode)] "m_a.py".data =
      .ok (fsSet [("out".data, FSNode.dirNode)] "out/m_a.py".data
        (.fileNode (pythonTemplate "M A".data))) := by
  refine ⟨⟨by decide, claim_C2_amended.1 _ _ _ _ _ _ (by decide)⟩,
    ⟨by decide, claim_C2_amended.2.2.1 _ _ (by decide) (by decide)⟩, ?w3⟩
  have h := claim_C2_amended.2.2.2.1 "out".data true [("out".data, FSNode.dirNode)]
    "m_a.py".data (by decide) (by decide) (by decide) (by decide) (by decide)
  rw [h]
  decide

/-- C9, counterexample to the claim as stated: the source lowercases the
confirmation answer before comparing to `'y'`, so the answer `"Y"` — which
is not the string `'y'` — does proceed and writes the file. -/
theorem claim_C9_counterexample :
    "Y".data ≠ "y".data ∧
    fsGet [(".".data, FSNode.dirNode)] "./a.txt".data = none ∧
    fsGet (mdStateOf (createStructureMd [("a.txt".data, false)] ".".data false "Y".data
        [(".".data, FSNode.dirNode)])) "./a.txt".data = some (.fileNode []) := by
  refine ⟨by decide, by decide, by decide⟩

/-- C9 (amended): `folder_md_converter.create_structure` performs no
filesystem writes when the dry-run flag is set, and likewise when the
lowercased confirmation answer differs from `'y'` (a normal `False` return,
not an error): in both cases it returns `ok` with the state unchanged. -/
theorem claim_C9_amended (paths : List (Str × Bool)) (baseDir : Str)
    (dryRun : Bool) (confirm : Str) (fs : FS)
    (h : dryRun = true ∨ pyLower confirm ≠ ['y']) :
    ∃ b, createStructureMd paths baseDir dryRun confirm fs = .ok (b, fs) := by
  rw [createStructureMd]
  by_cases hp : paths = []
  · rw [if_pos hp]
    exact ⟨false, rfl⟩
  · rw [if_neg hp]
    by_cases hd : dryRun = true
    · rw [hd, if_pos rfl]
      exact ⟨true, rfl⟩
    · rcases h with h | hc
      · exact absurd h hd
      · have hdf : dryRun = false := by
          cases dryRun
          · rfl
          · exact absurd rfl hd
        rw [hdf]
        rw [if_neg (by simp)]
        rw [if_pos hc]
        exact ⟨false, rfl⟩

theorem claim_C9_amended_witness :
    ((true : Bool) = true ∨ pyLower "y".data ≠ ['y']) ∧
    ∃ b, createStructureMd [("a.txt".data, false)] ".".data true "y".data [] =
      .ok (b, ([] : FS)) :=
  ⟨Or.inl rfl, claim_C9_amended _ _ _ _ _ (Or.inl rfl)⟩

/-! ### C8: empty extraction and exit codes -/

theorem findCodeBlocksAux_nil (fuel : Nat) :
    ∀ s : Str, (∀ c ∈ s, ¬c = Char.ofNat 96) → findCodeBlocksAux fuel s = [] := by
  induction fuel with
  | zero => intro s _; rfl
  | succ fuel ih =>
    intro s h
    cases s with
    | nil => rfl
    | cons c rest =>
      have hc : ¬c = Char.ofNat 96 := h c (List.mem_cons_self c rest)
      have hsw : startsWith (c :: rest) ("```".data) = false := by
        rw [show ("```".data : Str) =
          Char.ofNat 96 :: Char.ofNat 96 :: [Char.ofNat 96] from by decide]
        rw [startsWith, beq_eq_false_iff_ne.mpr hc, Bool.false_and]
      have hmf : matchFenceAt (c :: rest) = none := by
        rw [matchFenceAt, if_neg (by rw [hsw]; exact Bool.false_ne_true)]
      simp only [findCodeBlocksAux, hmf]
      exact ih rest (fun x hx => h x (List.mem_cons_of_mem c hx))

theorem extractStructure_nil (content : Str)
    (hb : ∀ c ∈ content, ¬c = Char.ofNat 96)
    (hl : ∀ l ∈ splitLines content, structLine1 l = false ∧ fallbackHit l = false) :
    extractStructure content = [] := by
  have hcb : findCodeBlocks content = [] := findCodeBlocksAux_nil _ _ hb
  have hf1 : (splitLines content).filter structLine1 = [] :=
    List.filter_eq_nil_iff.mpr
      (fun l hlm => by rw [(hl l hlm).1]; exact Bool.false_ne_true)
  have hf2 : (splitLines content).filter fallbackHit = [] :=
    List.filter_eq_nil_iff.mpr
      (fun l hlm => by rw [(hl l hlm).2]; exact Bool.false_ne_true)
  simp [extractStructure, hcb, hf1, hf2, firstBlockWithSlash, joinLines]

/-- C8, counterexample to the claim as stated: the line `" hello"` has no
fenced code block, no box-drawing glyph and no path-like token (no slash
and no name-dot-extension shape), yet the step-two pattern of
`extract_structure_from_markdown` — leading whitespace followed by a word
character — matches it, so the extracted structure is non-empty.  (`main`
still exits with 1 because `parse_structure` then discards the line.) -/
theorem claim_C8_counterexample :
    findCodeBlocks " hello".data = [] ∧
    (∀ l ∈ splitLines " hello".data, fallbackHit l = false) ∧
    extractStructure " hello".data = " hello".data ∧
    ¬" hello".data = ([] : Str) ∧
    fcMain " hello".data "out".data false [] = (1, []) := by
  refine ⟨by decide, by decide, by decide, by decide, by decide⟩

/-- C8 (amended): (1) for a document with no backtick — hence no fenced
code block — in which no line matches the source's structure-line test
(leading whitespace/glyph run followed by a word character, or a slash in
the line) and no line matches its fallback search (a box glyph, a
word/word pair, or a name.ext token), `extract_structure_from_markdown`
returns the empty structure and `main` exits with code 1 leaving the
filesystem unchanged; (2) exit code 0 is returned only on success: it
implies the extraction and parse were non-empty and creation succeeded,
the returned state being the created one. -/
theorem claim_C8_amended :
    (∀ content : Str,
      (∀ c ∈ content, ¬c = Char.ofNat 96) →
      (∀ l ∈ splitLines content, structLine1 l = false ∧ fallbackHit l = false) →
      extractStructure content = [] ∧
      ∀ (outDir : Str) (ws : Bool) (fs : FS), fcMain content outDir ws fs = (1, fs)) ∧
    (∀ (content outDir : Str) (ws : Bool) (fs : FS),
      (fcMain content outDir ws fs).1 = 0 →
      ¬extractStructure content = [] ∧
      ¬parseStructure (extractStructure content) = [] ∧
      createStructureFC outDir (parseStructure (extractStructure content)) ws fs =
        .ok (fcMain content outDir ws fs).2) := by
  constructor
  · intro content hb hl
    have he := extractStructure_nil content hb hl
    refine ⟨he, ?_⟩
    intro outDir ws fs
    rw [fcMain, he]
    rfl
  · intro content outDir ws fs h
    by_cases h1 : (extractStructure content).isEmpty
    · rw [fcMain, if_pos h1] at h
      simp at h
    · by_cases h2 : (parseStructure (extractStructure content)).isEmpty
      · rw [fcMain, if_neg h1, if_pos h2] at h
        simp at h
      · have hm : fcMain content outDir ws fs =
            fcFinish (createStructureFC outDir (parseStructure (extractStructure content)) ws fs) := by
          rw [fcMain, if_neg h1, if_neg h2]
        rw [hm] at h ⊢
        cases hc : createStructureFC outDir (parseStructure (extractStructure content)) ws fs with
        | ok fs2 =>
          refine ⟨?_, ?_, ?_⟩
          · intro hnil
            exact h1 (by rw [hnil]; rfl)
          · intro hnil
            exact h2 (by rw [hnil]; rfl)
          · rfl
        | error fs2 =>
          rw [hc] at h
          simp [fcFinish] at h

theorem claim_C8_amended_witness :
    extractStructure "just words\nand more".data = [] ∧
    fcMain "just words\nand more".data "out".data false [] = (1, []) := by
  have h := claim_C8_amended.1 "just words\nand more".data (by decide) (by decide)
  exact ⟨h.1, h.2 "out".data false []⟩

end FolderMd
